import Mathlib

/-!
Verification of `graph-scripts`: a shallow embedding of
`src/graph_adjacency_list.py` (adjacency-list graph parsing and
DOT/GraphML rendering) and `src/mvndepgraph.py` (pydot-based graph
merging, version squashing and style rules), with theorems checking the
specification's claims about them.

Python string operations are modelled at the character-list level
(`pySplit`, `pyStrip`, `pyJoin`), because their semantics (e.g.
`''.split(',') == ['']`) are load-bearing for the parser's behaviour.
-/

/-- Python `s.split(sep)` for a one-character separator `sep`, on
character lists.  Always returns a nonempty list; splitting the empty
string yields `[[]]` (Python: `''.split(',') == ['']`). -/
def pySplitAux (sep : Char) : List Char → List (List Char)
  | [] => [[]]
  | c :: rest =>
    match pySplitAux sep rest with
    | [] => [[]]
    | h :: t => if c = sep then [] :: h :: t else (c :: h) :: t

/-- Python `s.split(sep)` for a one-character separator. -/
def pySplit (sep : Char) (s : String) : List String :=
  (pySplitAux sep s.data).map String.mk

/-- Python `s.strip()`: remove leading and trailing whitespace. -/
def pyStrip (s : String) : String :=
  String.mk
    (((s.data.dropWhile Char.isWhitespace).reverse.dropWhile Char.isWhitespace).reverse)

/-- Python `sep.join(xs)` for a one-character separator, on character lists. -/
def pyJoinAux (sep : Char) : List (List Char) → List Char
  | [] => []
  | [x] => x
  | x :: y :: t => x ++ sep :: pyJoinAux sep (y :: t)

/-- Python `sep.join(xs)` for a one-character separator. -/
def pyJoin (sep : Char) (xs : List String) : String :=
  String.mk (pyJoinAux sep (xs.map String.data))

theorem pySplitAux_ne_nil (sep : Char) (l : List Char) : pySplitAux sep l ≠ [] := by
  cases l with
  | nil => simp [pySplitAux]
  | cons c rest =>
    simp only [pySplitAux]
    cases h : pySplitAux sep rest with
    | nil => simp
    | cons h t =>
      by_cases hc : c = sep <;> simp [hc]

/-- `join` is the left inverse of `split` (Python: `sep.join(s.split(sep)) == s`). -/
theorem pyJoinAux_pySplitAux (sep : Char) (l : List Char) :
    pyJoinAux sep (pySplitAux sep l) = l := by
  induction l with
  | nil => simp [pySplitAux, pyJoinAux]
  | cons c rest ih =>
    simp only [pySplitAux]
    cases h : pySplitAux sep rest with
    | nil => exact absurd h (pySplitAux_ne_nil sep rest)
    | cons hd t =>
      rw [h] at ih
      by_cases hc : c = sep
      · simp only [hc, if_pos rfl, pyJoinAux]
        cases t with
        | nil => simp [pyJoinAux] at ih ⊢; simpa [hc] using ih
        | cons t0 ts => simp [pyJoinAux] at ih ⊢; simpa [hc] using ih
      · simp only [if_neg hc]
        cases t with
        | nil => simp [pyJoinAux] at ih ⊢; simpa using ih
        | cons t0 ts => simp [pyJoinAux] at ih ⊢; simpa using ih

theorem pyJoin_pySplit (sep : Char) (s : String) : pyJoin sep (pySplit sep s) = s := by
  unfold pyJoin pySplit
  rw [List.map_map]
  have : (String.data ∘ String.mk) = id := by
    funext l; rfl
  rw [this, List.map_id, pyJoinAux_pySplitAux]

/-!
## `graph_adjacency_list.py`: data model and parsing

A Python `Node` object (`Node.__init__`, lines 17–22) carries `name`,
`out_edges`, `in_edges` and a `printed` flag.  `AdjacencyGraph.makeNode`
(lines 71–78) looks a name up in the registry list `self.nodes` and
returns the existing object when found, so at every point of execution
there is at most one `Node` object per distinct name, and every created
object is appended to `self.nodes` before the next `makeNode` call.
The embedding therefore identifies node objects with their names:

* `nodes` is the registry list `self.nodes` (names, duplicates possible,
  since `parseLine` appends unconditionally);
* `data` maps each distinct created node to its `out_edges`/`in_edges`
  (one association entry per Python `Node` object, in creation order).

Python object identity (`dest == src` on line 53 is reference equality,
as `Node` defines no `__eq__`) coincides with name equality because of
the one-object-per-name property above.

The `printed` flag is not part of the graph structure here; it is the
traversal state threaded through the printers (see `TravState` below),
which is faithful because exactly the printers read and write it.
-/

structure NodeData where
  out_edges : List String
  in_edges : List String
deriving DecidableEq

structure AdjacencyGraph where
  nodes : List String
  data : List (String × NodeData)
deriving DecidableEq

def AdjacencyGraph.empty : AdjacencyGraph := ⟨[], []⟩

/-- The out-edge list of the node object named `n` (empty if no such object). -/
def AdjacencyGraph.out_edges (g : AdjacencyGraph) (n : String) : List String :=
  match g.data.lookup n with
  | some d => d.out_edges
  | none => []

/-- The in-edge list of the node object named `n` (empty if no such object). -/
def AdjacencyGraph.in_edges (g : AdjacencyGraph) (n : String) : List String :=
  match g.data.lookup n with
  | some d => d.in_edges
  | none => []

/-- `AdjacencyGraph.matchLine` (lines 58–67):
`kv = line.strip().split('=')`; `None` when `len(kv) == 0` (dead branch:
Python `split` never returns an empty list); neighbour values
`kv[1].split(',')` when `len(kv) > 1`, else `[]`. -/
def AdjacencyGraph.matchLine (line : String) : Option (String × List String) :=
  match pySplit '=' (pyStrip line) with
  | [] => none
  | k :: rest =>
    match rest with
    | [] => some (k, [])
    | v :: _ => some (k, pySplit ',' v)

/-- `src = self.makeNode(name)` followed by `self.nodes.append(src)`:
the registry always gains an entry; a data entry is created only when no
object with this name exists yet (`makeNode`, lines 71–78, scans
`self.nodes`). -/
def AdjacencyGraph.registerNode (g : AdjacencyGraph) (name : String) : AdjacencyGraph :=
  { nodes := g.nodes ++ [name],
    data := if g.nodes.contains name then g.data else g.data ++ [(name, ⟨[], []⟩)] }

/-- `Node.add_out_edge` (lines 24–26): append `dest` to `src`'s
out-edges and, via `add_in_edge`, `src` to `dest`'s in-edges. -/
def AdjacencyGraph.add_out_edge (g : AdjacencyGraph) (src dest : String) : AdjacencyGraph :=
  { g with data := g.data.map (fun p =>
      let d := p.2
      let d := if p.1 = src then { d with out_edges := d.out_edges ++ [dest] } else d
      let d := if p.1 = dest then { d with in_edges := d.in_edges ++ [src] } else d
      (p.1, d)) }

/-- One iteration of the `for x in matchPair[1]` loop in `parseLine`
(lines 51–55): `dest = self.makeNode(x)`; when `dest` is not the very
`src` object (equivalently, when `x` differs from the key, since `src`
is already registered), add the edge and append `dest` to the registry. -/
def AdjacencyGraph.addDest (g : AdjacencyGraph) (src x : String) : AdjacencyGraph :=
  if x = src then g
  else
    let g1 : AdjacencyGraph :=
      { g with data := if g.nodes.contains x then g.data else g.data ++ [(x, ⟨[], []⟩)] }
    let g2 := g1.add_out_edge src x
    { g2 with nodes := g2.nodes ++ [x] }

/-- `AdjacencyGraph.parseLine` (lines 42–55). -/
def AdjacencyGraph.parseLine (g : AdjacencyGraph) (line : String) : AdjacencyGraph :=
  match AdjacencyGraph.matchLine line with
  | none => g
  | some (k, vals) => vals.foldl (fun acc x => acc.addDest k x) (g.registerNode k)

/-- `AdjacencyGraph.parseFile` (lines 37–39): parse each line in order. -/
def AdjacencyGraph.parseFile (g : AdjacencyGraph) (lines : List String) : AdjacencyGraph :=
  lines.foldl AdjacencyGraph.parseLine g

example : AdjacencyGraph.matchLine "A=B,C" = some ("A", ["B", "C"]) := by decide
example : AdjacencyGraph.matchLine "" = some ("", []) := by decide
example : AdjacencyGraph.matchLine "A=" = some ("A", [""]) := by decide
example :
    (AdjacencyGraph.empty.parseFile ["A=B", "A=C"]).nodes = ["A", "B", "A", "C"] := by decide
example :
    (AdjacencyGraph.empty.parseLine "A=").out_edges "A" = [""] := by decide

/-!
## Rendering (`GraphPrinter`, `GraphmlPrinter`, `DotPrinter`)

Both printers' `printNode` methods (GraphML lines 149–175, DOT lines
220–238) have character-for-character identical control flow:

    if node.printed: return
    node.printed = True
    if not skipNode: write(<node text>)
    for x in node.out_edges:
        printNode(x, file)               # recursive call, skipNode=False
        if not skipNode: write(<edge text>)

They differ only in the text written per node / per edge.  The embedding
therefore runs one shared traversal that records the sequence of write
calls as abstract events, and each printer is that traversal followed by
its own per-event formatting (`DotPrinter.render` /
`GraphmlPrinter.render`).  The unbounded Python recursion is embedded
with explicit fuel; `none` means the fuel ran out (we prove it never
does when the fuel exceeds the number of node objects).

`printGraph` (`GraphPrinter.printGraph`, lines 103–114) writes a header,
runs `printNode` on each registry entry passing the root filter, and
writes a footer.  Header and footer contain no node or edge text, so
they are outside the event alphabet.  Note that `printGraph` never
resets the `printed` flags: the traversal state is whatever the nodes
already carry.
-/

inductive OutEvent where
  | node (name : String)
  | edge (source target : String)
deriving DecidableEq

/-- Traversal state: the set of nodes whose `printed` flag is `True`
(as a list of names), and the node/edge events written so far. -/
structure TravState where
  printed : List String
  output : List OutEvent
deriving DecidableEq

/-- The `for x in node.out_edges` loop of both `printNode` bodies:
recurse into the child via `pn` (the recursive call at the next depth,
with `skipNode=False`), then emit the edge unless this node is being
skipped. -/
def printLoop (pn : String → TravState → Option TravState) (name : String) (skipNode : Bool) :
    List String → TravState → Option TravState
  | [], st => some st
  | x :: xs, st =>
    match pn x st with
    | none => none
    | some acc =>
      printLoop pn name skipNode xs
        (if skipNode then acc else { acc with output := acc.output ++ [.edge name x] })

/-- The shared body of `GraphmlPrinter.printNode` and
`DotPrinter.printNode`, producing write events. -/
def printNode (g : AdjacencyGraph) : Nat → String → Bool → TravState → Option TravState
  | 0, _, _, _ => none
  | fuel + 1, name, skipNode, st =>
    if st.printed.contains name then some st
    else
      let st1 : TravState :=
        { printed := name :: st.printed,
          output := if skipNode then st.output else st.output ++ [.node name] }
      printLoop (fun x acc => printNode g fuel x false acc) name skipNode
        (g.out_edges name) st1

/-- The `for n in filter(root_filter, graph.nodes)` loop of
`GraphPrinter.printGraph`: run `printNode` on each entry in turn. -/
def printRoots (g : AdjacencyGraph) (fuel : Nat) (suppressRoots : Bool) :
    List String → TravState → Option TravState
  | [], st => some st
  | n :: ns, st =>
    match printNode g fuel n suppressRoots st with
    | none => none
    | some st' => printRoots g fuel suppressRoots ns st'

/-- The root filter of `GraphPrinter.printGraph` (lines 106–109): with
an explicit root, name equality; otherwise `len(x.in_edges) == 0`. -/
def rootFilter (g : AdjacencyGraph) (root : Option String) : String → Bool :=
  match root with
  | some r => fun x => x = r
  | none => fun x => (g.in_edges x).isEmpty

/-- `GraphPrinter.printGraph` (lines 103–114), node/edge events only
(header and footer text carries no node or edge output). -/
def printGraph (g : AdjacencyGraph) (root : Option String) (suppressRoots : Bool)
    (fuel : Nat) (st : TravState) : Option TravState :=
  printRoots g fuel suppressRoots (g.nodes.filter (rootFilter g root)) st

/-- Fuel sufficient for any traversal of `g`: one more than the number
of node objects. -/
def renderFuel (g : AdjacencyGraph) : Nat := g.data.length + 1

/-- A full render call with sufficient fuel, starting from the `printed`
flags the nodes currently carry and an empty output stream. -/
def printGraphRun (g : AdjacencyGraph) (root : Option String) (suppressRoots : Bool)
    (printed : List String) : Option TravState :=
  printGraph g root suppressRoots (renderFuel g) ⟨printed, []⟩

/-- `GraphPrinter.makeNodeName` (lines 118–119): `'%s' % name`. -/
def makeNodeName (name : String) : String := name

/-- The text `DotPrinter.printNode` writes for a first visit of a node
(line 230); `nodeColor` is the local variable `'green'`, and the node
label is `node.name`. -/
def DotPrinter.nodeText (name : String) : String :=
  "\n  " ++ makeNodeName name ++ " [label=\"" ++ name ++ "\"  fillcolor=green ];\n"

/-- The text `DotPrinter.printNode` writes for an edge (line 238), with
the constructor defaults `edgeArrowHead='normal'`, `edgeArrowTail='none'`. -/
def DotPrinter.edgeText (source target : String) : String :=
  "\n  " ++ source ++ " -> " ++ target ++ " [arrowhead=normal,arrowtail=none];\n"

def DotPrinter.render (evs : List OutEvent) : String :=
  String.join (evs.map fun e =>
    match e with
    | .node n => DotPrinter.nodeText n
    | .edge a b => DotPrinter.edgeText a b)

/-- The `nodeXml` text `GraphmlPrinter.printNode` writes for a first
visit (lines 156–167), with both `%s` slots filled by the node name. -/
def GraphmlPrinter.nodeText (name : String) : String :=
  "<node id=\"" ++ makeNodeName name ++ "\"><data key=\"d1\"><y:ShapeNode>" ++
    "<y:Shape type=\"rectangle\"/><y:NodeLabel>" ++ makeNodeName name ++
    "</y:NodeLabel></y:ShapeNode></data></node>"

/-- `GraphmlPrinter.printEdge` (lines 146–147). -/
def GraphmlPrinter.edgeText (source target : String) : String :=
  "<edge source=\"" ++ source ++ "\" target=\"" ++ target ++ "\"/>"

def GraphmlPrinter.render (evs : List OutEvent) : String :=
  String.join (evs.map fun e =>
    match e with
    | .node n => GraphmlPrinter.nodeText n
    | .edge a b => GraphmlPrinter.edgeText a b)

/-- The DOT strategy's full node/edge output of one render call. -/
def DotPrinter.printGraphText (g : AdjacencyGraph) (root : Option String)
    (suppressRoots : Bool) (printed : List String) : Option String :=
  (printGraphRun g root suppressRoots printed).map fun st => DotPrinter.render st.output

/-- The GraphML strategy's full node/edge output of one render call. -/
def GraphmlPrinter.printGraphText (g : AdjacencyGraph) (root : Option String)
    (suppressRoots : Bool) (printed : List String) : Option String :=
  (printGraphRun g root suppressRoots printed).map fun st => GraphmlPrinter.render st.output

example :
    printGraphRun (AdjacencyGraph.empty.parseFile ["A=B"]) none false [] =
      some ⟨["B", "A"], [.node "A", .node "B", .edge "A" "B"]⟩ := by decide

example :
    printGraphRun (AdjacencyGraph.empty.parseFile ["A=B", "B=A"]) none false [] =
      some ⟨[], []⟩ := by decide

example :
    printGraphRun (AdjacencyGraph.empty.parseFile ["A=B", "B=A"]) (some "A") false [] =
      some ⟨["B", "A"], [.node "A", .node "B", .edge "B" "A", .edge "A" "B"]⟩ := by decide

/-!
## `mvndepgraph.py`: pydot model

The script manipulates `pydot` graphs.  The embedding models the slice
of `pydot` the script touches: a graph is a node list plus an edge list;
a node has a name and an open attribute mapping; `get_node` returns the
list of nodes with a given name; `add_node` / `add_edge` append.
Attribute values are either strings or Python sets of strings
(`SquashVersionRule.tag_version` stores a `set` under the key
`'versions'`); `PyVal` covers both, with Python truthiness (`None`,
empty string and empty set are falsy) modelled by `PyVal.truthy`.
-/

inductive PyVal where
  | str (s : String)
  | vset (s : Finset String)
deriving DecidableEq

/-- Python truthiness of an attribute value. -/
def PyVal.truthy : PyVal → Bool
  | .str s => s ≠ ""
  | .vset s => s ≠ ∅

/-- Python `len` of an attribute value. -/
def PyVal.pyLen : PyVal → Nat
  | .str s => s.length
  | .vset s => s.card

/-- Python truthiness of `node.get(key)` (absent attribute = `None` = falsy). -/
def pyTruthy : Option PyVal → Bool
  | none => false
  | some v => v.truthy

/-- Python `set.update` (in-place union).  The script only ever calls it
with both operands version sets; any other combination leaves the value
unchanged (unreachable in the modelled code paths). -/
def pyUpdate : PyVal → PyVal → PyVal
  | .vset a, .vset b => .vset (a ∪ b)
  | v, _ => v

/-- A pydot node: a name plus attribute mapping. -/
structure PNode where
  name : String
  attrs : List (String × PyVal)
deriving DecidableEq

/-- pydot `Node.get(key)`. -/
def PNode.get (n : PNode) (k : String) : Option PyVal :=
  n.attrs.lookup k

/-- Update an association list at a key (replace the first binding or append). -/
def setAttr : List (String × PyVal) → String → PyVal → List (String × PyVal)
  | [], k, v => [(k, v)]
  | (k', v') :: rest, k, v =>
    if k' = k then (k, v) :: rest else (k', v') :: setAttr rest k v

/-- pydot `Node.set(key, value)`. -/
def PNode.set (n : PNode) (k : String) (v : PyVal) : PNode :=
  { n with attrs := setAttr n.attrs k v }

/-- A pydot graph: node list and edge list (edges as source/target name
pairs; the script's edges carry no attributes of their own). -/
structure PyGraph where
  nodes : List PNode
  edges : List (String × String)
deriving DecidableEq

/-- pydot `Graph.get_node(name)`: every node with that name. -/
def PyGraph.get_node (g : PyGraph) (name : String) : List PNode :=
  g.nodes.filter (·.name = name)

/-- pydot `Graph.add_node`. -/
def PyGraph.add_node (g : PyGraph) (n : PNode) : PyGraph :=
  { g with nodes := g.nodes ++ [n] }

/-- pydot `Graph.add_edge`. -/
def PyGraph.add_edge (g : PyGraph) (e : String × String) : PyGraph :=
  { g with edges := g.edges ++ [e] }

/-- Apply `f` to the first node named `name` (what mutating the head of
pydot's `get_node` result does to the graph). -/
def updateFirst (name : String) (f : PNode → PNode) : List PNode → List PNode
  | [] => []
  | n :: rest =>
    if n.name = name then f n :: rest else n :: updateFirst name f rest

/-!
### `NodeStyleRule` (lines 7–61)

`match_pattern` is a compiled regular expression; the regex engine is an
external collaborator, so a rule's pattern is embedded as the predicate
`String → Bool` it decides (`re.match` truthiness).  The wildcard
pattern `'^.*$'` of `NodeStyleRule.globalRule` matches every string. -/

structure NodeStyleRule where
  match_pattern : String → Bool
  style_attributes : List (String × PyVal)

/-- `NodeStyleRule.globalRule` (lines 12–14): pattern `'^.*$'`, which
matches every node name. -/
def NodeStyleRule.globalRule (style_attributes : List (String × PyVal)) : NodeStyleRule :=
  ⟨fun _ => true, style_attributes⟩

/-- `NodeStyleRule.copy_attributes` (lines 59–61): set every style
attribute on the node in turn. -/
def NodeStyleRule.copy_attributes (r : NodeStyleRule) (n : PNode) : PNode :=
  r.style_attributes.foldl (fun n a => n.set a.1 a.2) n

/-- `NodeStyleRule.apply_node` (lines 40–56): if the name matches, fetch
the node; if absent, create and add one; then impose the styles on it
(the Python code mutates `n[0]`, the first node with that name, which
for a freshly added node is the new node itself). -/
def NodeStyleRule.apply_node (r : NodeStyleRule) (g : PyGraph) (node_name : String) :
    PyGraph :=
  if r.match_pattern node_name then
    match g.get_node node_name with
    | [] =>
      let n : PNode := ⟨node_name, []⟩
      { g with nodes := g.nodes ++ [r.copy_attributes n] }
    | _ :: _ =>
      { g with nodes := updateFirst node_name r.copy_attributes g.nodes }
  else g

/-!
### `SquashVersionRule` (lines 67–128) and `GraphProcessor` (lines 133–277)
-/

def SquashVersionRule.MVN_VERSION_POSITION : Nat := 3

/-- `SquashVersionRule.squash_version` (lines 105–109): keep the first
three `':'`-separated components and append a `'"'` (the source "slaps
the quote back on" because pydot node names include their quotes). -/
def SquashVersionRule.squash_version (value : String) : String :=
  pyJoin ':' ((pySplit ':' value).take SquashVersionRule.MVN_VERSION_POSITION) ++ "\""

/-- The name normalisation exactly as the specification words it: split
on `':'`, keep the first 3 components, re-join with `':'`.  Stated from
the spec, for comparison with `squash_version` above. -/
def squashSpec (value : String) : String :=
  pyJoin ':' ((pySplit ':' value).take 3)

/-- `GraphProcessor.DEFAULT_COLORS` (lines 135–140). -/
def DEFAULT_COLORS_intersect : String := "#00FF00"

def DEFAULT_COLORS_non_intersect_list : List String :=
  ["#ccffff", "#FF99FF", "#CCFF66", "#FF9966", "#6600FF", "#FF0033", "#FFFF00", "#CCCCCC"]

def DEFAULT_COLORS_highlight : String := "#FF66FF"

def DEFAULT_COLORS_conflict : String := "#ffffff"

/-- `SquashVersionRule.clean_version_tag` (lines 111–128): when the
`'versions'` attribute is truthy and has `len > 1`, set the conflict
shape and, when no truthy `'style'` is present, the default conflict
fill; finally blank `'versions'` to the string `" "`. -/
def SquashVersionRule.clean_version_tag (node : PNode) : PNode :=
  let node1 :=
    match node.get "versions" with
    | none => node
    | some versions =>
      if versions.truthy then
        if 1 < versions.pyLen then
          let n2 := node.set "shape" (.str "tripleoctagon")
          if pyTruthy (n2.get "style") then n2
          else (n2.set "style" (.str "filled")).set "fillcolor"
            (.str DEFAULT_COLORS_conflict)
        else node
      else node
  node1.set "versions" (.str " ")

/-- The already-present branch of the node-copy step of
`GraphProcessor.merge_graphs` (lines 196–202): merge only the
`'versions'` attributes of the existing node `mn` and the incoming copy
`nn` (`update` when both are truthy, overwrite when only the incoming
one is truthy, otherwise keep). -/
def mergeVersionsAttr (nn mn : PNode) : PNode :=
  if pyTruthy (mn.get "versions") && pyTruthy (nn.get "versions") then
    mn.set "versions"
      (pyUpdate ((mn.get "versions").getD (.str ""))
        ((nn.get "versions").getD (.str "")))
  else if pyTruthy (nn.get "versions") then
    mn.set "versions" ((nn.get "versions").getD (.str ""))
  else mn

/-- One node-copy step of `GraphProcessor.merge_graphs` (lines 191–205):
copy node `n` into `merged`; when a node with the same name is already
there, merge the `'versions'` attributes instead of adding. -/
def mergeNodeStep (merged : PyGraph) (n : PNode) : PyGraph :=
  let nn : PNode := ⟨n.name, n.attrs⟩
  match merged.get_node n.name with
  | [] => merged.add_node nn
  | _ :: _ =>
    { merged with nodes := updateFirst n.name (mergeVersionsAttr nn) merged.nodes }

/-- `GraphProcessor.merge_graphs` (lines 179–208): fold the input graphs
into an initially empty `pydot.Dot()`, copying every edge and then
merging every node. -/
def merge_graphs (graphs : List PyGraph) : PyGraph :=
  graphs.foldl (fun merged g =>
    let merged1 := { merged with edges := merged.edges ++ g.edges }
    g.nodes.foldl mergeNodeStep merged1)
    ⟨[], []⟩

example :
    SquashVersionRule.squash_version "\"com.foo:bar:1.0:jar\"" = "\"com.foo:bar:1.0\"" := by
  decide

example : SquashVersionRule.squash_version "a:b:c" = "a:b:c\"" := by decide

example :
    (SquashVersionRule.clean_version_tag
        ⟨"A", [("versions", .vset {"x", "y"})]⟩).get "shape" =
      some (.str "tripleoctagon") := by decide

example :
    (merge_graphs
        [⟨[⟨"A", [("versions", .vset {"v1"})]⟩], [("A", "B")]⟩,
         ⟨[⟨"A", [("versions", .vset {"v2"})]⟩], [("A", "B")]⟩]).edges =
      [("A", "B"), ("A", "B")] := by decide

example :
    (merge_graphs
        [⟨[⟨"A", [("versions", .vset {"v1"})]⟩], []⟩,
         ⟨[⟨"A", [("versions", .vset {"v2"})]⟩], []⟩]).nodes =
      [⟨"A", [("versions", .vset {"v1", "v2"})]⟩] := by decide

/-!
## Parsing invariants

`GoodGraph` is the state invariant of `AdjacencyGraph` construction:
the per-object association has one entry per name, and a name is in the
registry exactly when an object with that name exists.  It holds for
the empty graph and is preserved by every parsing step.
-/

def GoodGraph (g : AdjacencyGraph) : Prop :=
  (g.data.map Prod.fst).Nodup ∧ ∀ n : String, n ∈ g.nodes ↔ n ∈ g.data.map Prod.fst

theorem goodGraph_empty : GoodGraph AdjacencyGraph.empty := by
  constructor
  · simp [AdjacencyGraph.empty]
  · intro n; simp [AdjacencyGraph.empty]

theorem add_out_edge_data_keys (g : AdjacencyGraph) (a b : String) :
    (g.add_out_edge a b).data.map Prod.fst = g.data.map Prod.fst := by
  simp only [AdjacencyGraph.add_out_edge, List.map_map]
  rfl

theorem add_out_edge_nodes (g : AdjacencyGraph) (a b : String) :
    (g.add_out_edge a b).nodes = g.nodes := rfl

theorem registerNode_nodes (g : AdjacencyGraph) (k : String) :
    (g.registerNode k).nodes = g.nodes ++ [k] := rfl

theorem registerNode_keys_mem (g : AdjacencyGraph) (k : String) (hc : k ∈ g.nodes) :
    (g.registerNode k).data = g.data := by
  simp [AdjacencyGraph.registerNode, hc]

theorem registerNode_keys_not_mem (g : AdjacencyGraph) (k : String) (hc : k ∉ g.nodes) :
    (g.registerNode k).data = g.data ++ [(k, ⟨[], []⟩)] := by
  simp [AdjacencyGraph.registerNode, hc]

theorem addDest_nodes (g : AdjacencyGraph) (src x : String) (hx : x ≠ src) :
    (g.addDest src x).nodes = g.nodes ++ [x] := by
  unfold AdjacencyGraph.addDest
  simp [hx, add_out_edge_nodes]

theorem addDest_keys (g : AdjacencyGraph) (src x : String) (hx : x ≠ src) :
    (g.addDest src x).data.map Prod.fst =
      if x ∈ g.nodes then g.data.map Prod.fst else g.data.map Prod.fst ++ [x] := by
  unfold AdjacencyGraph.addDest
  by_cases hc : x ∈ g.nodes
  · simp [hx, hc, add_out_edge_data_keys]
  · simp [hx, hc, add_out_edge_data_keys]

theorem goodGraph_registerNode (g : AdjacencyGraph) (k : String) (h : GoodGraph g) :
    GoodGraph (g.registerNode k) := by
  obtain ⟨hnd, hiff⟩ := h
  by_cases hc : k ∈ g.nodes
  · constructor
    · rw [registerNode_keys_mem g k hc]; exact hnd
    · intro n
      rw [registerNode_nodes, registerNode_keys_mem g k hc]
      simp only [List.mem_append, List.mem_singleton]
      constructor
      · rintro (hn | rfl)
        · exact (hiff n).mp hn
        · exact (hiff _).mp hc
      · intro hn; exact Or.inl ((hiff n).mpr hn)
  · have hk : k ∉ g.data.map Prod.fst := fun hmem => hc ((hiff k).mpr hmem)
    constructor
    · rw [registerNode_keys_not_mem g k hc]
      simp [List.nodup_append, hnd, hk]
    · intro n
      rw [registerNode_nodes, registerNode_keys_not_mem g k hc]
      simp only [List.map_append, List.mem_append, List.mem_singleton,
        List.map_cons, List.map_nil]
      constructor
      · rintro (hn | rfl)
        · exact Or.inl ((hiff n).mp hn)
        · exact Or.inr rfl
      · rintro (hn | rfl)
        · exact Or.inl ((hiff n).mpr hn)
        · exact Or.inr rfl

theorem goodGraph_addDest (g : AdjacencyGraph) (src x : String) (h : GoodGraph g) :
    GoodGraph (g.addDest src x) := by
  obtain ⟨hnd, hiff⟩ := h
  by_cases hx : x = src
  · subst hx
    simpa [AdjacencyGraph.addDest] using ⟨hnd, hiff⟩
  · by_cases hc : x ∈ g.nodes
    · constructor
      · rw [addDest_keys g src x hx]; simpa [hc] using hnd
      · intro n
        rw [addDest_nodes g src x hx, addDest_keys g src x hx]
        simp only [hc, if_true, List.mem_append, List.mem_singleton]
        constructor
        · rintro (hn | rfl)
          · exact (hiff n).mp hn
          · exact (hiff _).mp hc
        · intro hn; exact Or.inl ((hiff n).mpr hn)
    · have hk : x ∉ g.data.map Prod.fst := fun hmem => hc ((hiff x).mpr hmem)
      constructor
      · rw [addDest_keys g src x hx]
        simp [hc, List.nodup_append, hnd, hk]
      · intro n
        rw [addDest_nodes g src x hx, addDest_keys g src x hx]
        simp only [hc, if_false, List.mem_append, List.mem_singleton]
        constructor
        · rintro (hn | rfl)
          · exact Or.inl ((hiff n).mp hn)
          · exact Or.inr rfl
        · rintro (hn | rfl)
          · exact Or.inl ((hiff n).mpr hn)
          · exact Or.inr rfl

theorem goodGraph_foldl_addDest (src : String) (vals : List String) :
    ∀ g : AdjacencyGraph, GoodGraph g →
      GoodGraph (vals.foldl (fun acc x => acc.addDest src x) g) := by
  induction vals with
  | nil => intro g h; exact h
  | cons v vs ih =>
    intro g h
    exact ih _ (goodGraph_addDest g src v h)

theorem goodGraph_parseLine (g : AdjacencyGraph) (line : String) (h : GoodGraph g) :
    GoodGraph (g.parseLine line) := by
  unfold AdjacencyGraph.parseLine
  cases AdjacencyGraph.matchLine line with
  | none => exact h
  | some kv =>
    exact goodGraph_foldl_addDest kv.1 kv.2 _ (goodGraph_registerNode g kv.1 h)

theorem goodGraph_parseFile (lines : List String) :
    ∀ g : AdjacencyGraph, GoodGraph g → GoodGraph (g.parseFile lines) := by
  induction lines with
  | nil => intro g h; exact h
  | cons l ls ih =>
    intro g h
    exact ih _ (goodGraph_parseLine g l h)

/-!
## Claims C2, C3, C4
-/

/-- C2, counterexample: the claim says every mentioned name occurs
exactly once in the registry (`self.nodes`), but `parseLine` appends the
key's node object unconditionally (line 49), so parsing `A=B` then `A=C`
leaves two registry entries for `A`. -/
theorem registry_duplicate_counterexample :
    (AdjacencyGraph.empty.parseFile ["A=B", "A=C"]).nodes.count "A" = 2 ∧
    (AdjacencyGraph.empty.parseFile ["A=B", "A=C"]).nodes.count "A" ≠ 1 := by
  decide

/-- C2, amended: identity dedup holds at the object level — after
parsing any input from the empty graph there is at most one node object
per distinct name (the association keys are nodup), and every registry
entry refers to one of those objects; but the registry *sequence* may
mention the same node more than once. -/
theorem one_node_object_per_name (lines : List String) :
    ((AdjacencyGraph.empty.parseFile lines).data.map Prod.fst).Nodup ∧
    ∀ n ∈ (AdjacencyGraph.empty.parseFile lines).nodes,
      n ∈ (AdjacencyGraph.empty.parseFile lines).data.map Prod.fst := by
  have h := goodGraph_parseFile lines AdjacencyGraph.empty goodGraph_empty
  exact ⟨h.1, fun n hn => (h.2 n).mp hn⟩

theorem one_node_object_per_name_witness :
    "A" ∈ (AdjacencyGraph.empty.parseFile ["A=B"]).nodes ∧
    "A" ∈ (AdjacencyGraph.empty.parseFile ["A=B"]).data.map Prod.fst :=
  ⟨by decide, (one_node_object_per_name ["A=B"]).2 "A" (by decide)⟩

/-- C3: what the code actually does on the claim's two inputs.  A blank
line strips and splits to `['']`, which is a truthy pair `('', [])`, so
the empty-name key node is registered (the graph mutates).  A line
`A=` splits to `['A', '']` and `''.split(',') == ['']`, so the neighbour
list is `['']`, not empty: `A` gets an out-edge to a node named `''`. -/
theorem parseLine_blank_and_trailing_behaviour :
    (AdjacencyGraph.empty.parseLine "").nodes = [""] ∧
    (AdjacencyGraph.empty.parseLine "") ≠ AdjacencyGraph.empty ∧
    (AdjacencyGraph.empty.parseLine "A=").out_edges "A" = [""] ∧
    (AdjacencyGraph.empty.parseLine "A=").nodes = ["A", ""] := by
  decide

/-- C4, counterexample: `squash_version` is not the pure
split/take-3/rejoin of the claim — it appends a `'"'` — so a name that
already has at most 3 components is changed, and re-squashing is not a
no-op. -/
theorem squash_version_counterexample :
    SquashVersionRule.squash_version "a:b:c" ≠ "a:b:c" ∧
    SquashVersionRule.squash_version (SquashVersionRule.squash_version "a:b:c") ≠
      SquashVersionRule.squash_version "a:b:c" := by
  decide

/-- C4, amended: `squash_version` equals the claim's normalisation
(`squashSpec`: split on `':'`, keep the first 3 components, re-join)
*plus a trailing quote character*; it therefore never equals the plain
re-join, and on a name with at most 3 components it returns the name
with a quote appended (not the name unchanged). -/
theorem squash_version_characterization (value : String) :
    SquashVersionRule.squash_version value = squashSpec value ++ "\"" ∧
    SquashVersionRule.squash_version value ≠ squashSpec value ∧
    ((pySplit ':' value).length ≤ 3 →
      SquashVersionRule.squash_version value = value ++ "\"") := by
  refine ⟨rfl, ?_, ?_⟩
  · intro h
    have hlen := congrArg String.length h
    rw [show SquashVersionRule.squash_version value = squashSpec value ++ "\"" from rfl,
      String.length_append] at hlen
    rw [show ("\"" : String).length = 1 from rfl] at hlen
    omega
  · intro h
    show pyJoin ':' ((pySplit ':' value).take SquashVersionRule.MVN_VERSION_POSITION) ++
        "\"" = value ++ "\""
    rw [show SquashVersionRule.MVN_VERSION_POSITION = 3 from rfl,
      List.take_of_length_le h, pyJoin_pySplit]

theorem squash_version_characterization_witness :
    (pySplit ':' "a:b").length ≤ 3 ∧
    SquashVersionRule.squash_version "a:b" = "a:b" ++ "\"" :=
  ⟨by decide, (squash_version_characterization "a:b").2.2 (by decide)⟩

/-!
## Traversal lemmas

Equation lemmas for the traversal, then: the `printed` set only grows
(`_extend`, `_mono`), a call marks its argument (`_marks`), the
traversal is total when the fuel exceeds the number of unprinted node
objects (`_isSome`), and the exact node/edge emission counts
(`_master`).
-/

theorem printNode_zero (g : AdjacencyGraph) (name : String) (sk : Bool) (st : TravState) :
    printNode g 0 name sk st = none := rfl

theorem printNode_succ (g : AdjacencyGraph) (fuel : Nat) (name : String) (sk : Bool)
    (st : TravState) :
    printNode g (fuel + 1) name sk st =
      if st.printed.contains name then some st
      else
        printLoop (fun x acc => printNode g fuel x false acc) name sk (g.out_edges name)
          ⟨name :: st.printed, if sk then st.output else st.output ++ [.node name]⟩ := rfl

theorem printLoop_nil (pn : String → TravState → Option TravState) (name : String)
    (sk : Bool) (st : TravState) : printLoop pn name sk [] st = some st := rfl

theorem printLoop_cons (pn : String → TravState → Option TravState) (name : String)
    (sk : Bool) (x : String) (xs : List String) (st : TravState) :
    printLoop pn name sk (x :: xs) st =
      match pn x st with
      | none => none
      | some acc =>
        printLoop pn name sk xs
          (if sk then acc else { acc with output := acc.output ++ [.edge name x] }) := rfl

theorem not_contains_iff (l : List String) (a : String) :
    (!l.contains a) = true ↔ a ∉ l := by
  simp [List.elem_iff]

theorem lookup_eq_none_of_not_mem_keys {l : List (String × NodeData)} {a : String}
    (h : a ∉ l.map Prod.fst) : l.lookup a = none := by
  induction l with
  | nil => rfl
  | cons p t ih =>
    simp only [List.map_cons, List.mem_cons] at h
    push_neg at h
    obtain ⟨h1, h2⟩ := h
    cases p with
    | mk k v =>
      simp only [List.lookup]
      rw [show (a == k) = false from beq_eq_false_iff_ne.mpr h1]
      exact ih h2

theorem out_edges_eq_nil_of_not_key (g : AdjacencyGraph) (name : String)
    (h : name ∉ g.data.map Prod.fst) : g.out_edges name = [] := by
  unfold AdjacencyGraph.out_edges
  rw [lookup_eq_none_of_not_mem_keys h]

/-- The state after one loop step: `printed` is untouched and the output
is extended by at most one edge event. -/
theorem loopStep_printed (sk : Bool) (name x : String) (acc : TravState) :
    (if sk then acc
     else { acc with output := acc.output ++ [OutEvent.edge name x] }).printed =
      acc.printed := by
  by_cases hs : sk <;> simp [hs]

theorem loopStep_output (sk : Bool) (name x : String) (acc : TravState) :
    (if sk then acc
     else { acc with output := acc.output ++ [OutEvent.edge name x] }).output =
      acc.output ++ (if sk then [] else [OutEvent.edge name x]) := by
  by_cases hs : sk <;> simp [hs]

theorem printLoop_extend (pn : String → TravState → Option TravState)
    (hpn : ∀ x st st', pn x st = some st' →
      (∃ P, st'.printed = P ++ st.printed) ∧ ∃ Δ, st'.output = st.output ++ Δ) :
    ∀ (xs : List String) (name : String) (sk : Bool) (st st' : TravState),
      printLoop pn name sk xs st = some st' →
      (∃ P, st'.printed = P ++ st.printed) ∧ ∃ Δ, st'.output = st.output ++ Δ := by
  intro xs
  induction xs with
  | nil =>
    intro name sk st st' h
    rw [printLoop_nil] at h
    cases h
    exact ⟨⟨[], rfl⟩, [], by simp⟩
  | cons x xs ih =>
    intro name sk st st' h
    rw [printLoop_cons] at h
    cases hx : pn x st with
    | none => rw [hx] at h; cases h
    | some acc =>
      rw [hx] at h
      obtain ⟨⟨P1, hP1⟩, Δ1, hΔ1⟩ := hpn x st acc hx
      obtain ⟨⟨P2, hP2⟩, Δ2, hΔ2⟩ := ih name sk _ st' h
      rw [loopStep_printed] at hP2
      rw [loopStep_output] at hΔ2
      constructor
      · exact ⟨P2 ++ P1, by rw [hP2, hP1, List.append_assoc]⟩
      · refine ⟨Δ1 ++ (if sk then [] else [OutEvent.edge name x]) ++ Δ2, ?_⟩
        rw [hΔ2, hΔ1]
        simp [List.append_assoc]

theorem printNode_extend : ∀ (fuel : Nat) (g : AdjacencyGraph) (name : String) (sk : Bool)
    (st st' : TravState), printNode g fuel name sk st = some st' →
    (∃ P, st'.printed = P ++ st.printed) ∧ ∃ Δ, st'.output = st.output ++ Δ := by
  intro fuel
  induction fuel with
  | zero => intro g name sk st st' h; rw [printNode_zero] at h; cases h
  | succ fuel ih =>
    intro g name sk st st' h
    rw [printNode_succ] at h
    by_cases hc : st.printed.contains name
    · rw [if_pos hc] at h
      cases h
      exact ⟨⟨[], rfl⟩, [], by simp⟩
    · rw [if_neg hc] at h
      obtain ⟨⟨P, hP⟩, Δ, hΔ⟩ :=
        printLoop_extend _ (fun x s s' hx => ih g x false s s' hx) _ name sk _ st' h
      constructor
      · exact ⟨P ++ [name], by rw [hP]; simp⟩
      · by_cases hs : sk
        · exact ⟨Δ, by rw [hΔ]; simp [hs]⟩
        · exact ⟨[OutEvent.node name] ++ Δ, by rw [hΔ]; simp [hs]⟩

theorem printNode_printed_mono {g : AdjacencyGraph} {fuel : Nat} {name : String} {sk : Bool}
    {st st' : TravState} (h : printNode g fuel name sk st = some st') :
    ∀ a ∈ st.printed, a ∈ st'.printed := by
  obtain ⟨⟨P, hP⟩, -⟩ := printNode_extend fuel g name sk st st' h
  intro a ha
  rw [hP]
  exact List.mem_append_right _ ha

theorem printNode_marks {g : AdjacencyGraph} {fuel : Nat} {name : String} {sk : Bool}
    {st st' : TravState} (h : printNode g fuel name sk st = some st') :
    name ∈ st'.printed := by
  cases fuel with
  | zero => rw [printNode_zero] at h; cases h
  | succ fuel =>
    rw [printNode_succ] at h
    by_cases hc : st.printed.contains name
    · rw [if_pos hc] at h
      cases h
      exact List.elem_iff.mp hc
    · rw [if_neg hc] at h
      obtain ⟨⟨P, hP⟩, -⟩ :=
        printLoop_extend _
          (fun x s s' hx => printNode_extend fuel g x false s s' hx) _ name sk _ st' h
      rw [hP]
      exact List.mem_append_right _ (List.mem_cons_self _ _)

/-- The number of node objects not yet printed: the traversal's
termination measure. -/
def unprinted (g : AdjacencyGraph) (printed : List String) : Nat :=
  ((g.data.map Prod.fst).filter (fun n => !printed.contains n)).length

theorem length_filter_le_of_imp {α : Type} (l : List α) (p q : α → Bool)
    (h : ∀ a, p a = true → q a = true) :
    (l.filter p).length ≤ (l.filter q).length := by
  induction l with
  | nil => simp
  | cons a t ih =>
    simp only [List.filter_cons]
    by_cases hpa : p a = true
    · rw [if_pos hpa, if_pos (h a hpa)]
      simpa using ih
    · rw [if_neg hpa]
      by_cases hqa : q a = true
      · rw [if_pos hqa]
        exact le_trans ih (by simp)
      · rw [if_neg hqa]
        exact ih

theorem length_filter_lt_of_mem {α : Type} (l : List α) (p q : α → Bool)
    (h : ∀ a, p a = true → q a = true) (x : α) (hx : x ∈ l) (hqx : q x = true)
    (hpx : p x = false) :
    (l.filter p).length < (l.filter q).length := by
  induction l with
  | nil => cases hx
  | cons a t ih =>
    simp only [List.filter_cons]
    rcases List.mem_cons.mp hx with rfl | hxt
    · rw [if_neg (by simp [hpx]), if_pos hqx]
      simp only [List.length_cons]
      exact Nat.lt_succ_of_le (length_filter_le_of_imp t p q h)
    · by_cases hpa : p a = true
      · rw [if_pos hpa, if_pos (h a hpa)]
        simpa using ih hxt
      · rw [if_neg hpa]
        by_cases hqa : q a = true
        · rw [if_pos hqa]
          simp only [List.length_cons]
          exact Nat.lt_succ_of_lt (ih hxt)
        · rw [if_neg hqa]
          exact ih hxt

theorem unprinted_le (g : AdjacencyGraph) {printed printed' : List String}
    (h : ∀ a ∈ printed, a ∈ printed') :
    unprinted g printed' ≤ unprinted g printed := by
  apply length_filter_le_of_imp
  intro a ha
  rw [not_contains_iff] at ha ⊢
  exact fun hmem => ha (h a hmem)

theorem unprinted_lt (g : AdjacencyGraph) {printed : List String} (name : String)
    (hk : name ∈ g.data.map Prod.fst) (hn : name ∉ printed) :
    unprinted g (name :: printed) < unprinted g printed := by
  apply length_filter_lt_of_mem _ _ _ ?_ name hk
  · rw [not_contains_iff]; exact hn
  · have : name ∈ name :: printed := List.mem_cons_self _ _
    simp [List.elem_iff.mpr this]
  · intro a ha
    rw [not_contains_iff] at ha ⊢
    exact fun hmem => ha (List.mem_cons_of_mem _ hmem)

theorem unprinted_le_length (g : AdjacencyGraph) (printed : List String) :
    unprinted g printed ≤ g.data.length := by
  refine le_trans (List.length_filter_le _ _) ?_
  simp

theorem printLoop_isSome (g : AdjacencyGraph) (fuel : Nat)
    (pn : String → TravState → Option TravState)
    (hsome : ∀ x st, unprinted g st.printed < fuel → ∃ st', pn x st = some st')
    (hmono : ∀ x st st', pn x st = some st' → ∀ a ∈ st.printed, a ∈ st'.printed) :
    ∀ (xs : List String) (name : String) (sk : Bool) (st : TravState),
      unprinted g st.printed < fuel →
      ∃ st', printLoop pn name sk xs st = some st' := by
  intro xs
  induction xs with
  | nil => exact fun name sk st _ => ⟨st, rfl⟩
  | cons x xs ih =>
    intro name sk st h
    obtain ⟨acc, hacc⟩ := hsome x st h
    have hU : unprinted g acc.printed < fuel :=
      lt_of_le_of_lt (unprinted_le g (hmono x st acc hacc)) h
    obtain ⟨st', h'⟩ := ih name sk
      (if sk then acc else { acc with output := acc.output ++ [OutEvent.edge name x] })
      (by rw [loopStep_printed]; exact hU)
    refine ⟨st', ?_⟩
    rw [printLoop_cons, hacc]
    exact h'

theorem printNode_isSome : ∀ (fuel : Nat) (g : AdjacencyGraph) (name : String) (sk : Bool)
    (st : TravState), unprinted g st.printed < fuel →
    ∃ st', printNode g fuel name sk st = some st' := by
  intro fuel
  induction fuel with
  | zero => intro g name sk st h; exact absurd h (Nat.not_lt_zero _)
  | succ fuel ih =>
    intro g name sk st h
    by_cases hc : st.printed.contains name
    · exact ⟨st, by rw [printNode_succ, if_pos hc]⟩
    · have hnm : name ∉ st.printed := by
        rw [← not_contains_iff]
        simp only [Bool.not_eq_true']
        exact Bool.of_not_eq_true hc ▸ rfl
      by_cases hk : name ∈ g.data.map Prod.fst
      · have hlt : unprinted g (name :: st.printed) < fuel := by
          have h1 := unprinted_lt g name hk hnm
          omega
        obtain ⟨st', h'⟩ := printLoop_isSome g fuel (fun x acc => printNode g fuel x false acc)
          (fun x st2 h2 => ih g x false st2 h2)
          (fun x st2 st2' hx => printNode_printed_mono hx)
          (g.out_edges name) name sk
          ⟨name :: st.printed, if sk then st.output else st.output ++ [.node name]⟩
          hlt
        exact ⟨st', by rw [printNode_succ, if_neg hc]; exact h'⟩
      · refine ⟨⟨name :: st.printed,
          if sk then st.output else st.output ++ [.node name]⟩, ?_⟩
        rw [printNode_succ, if_neg hc, out_edges_eq_nil_of_not_key g name hk,
          printLoop_nil]

theorem if_add_if_exclusive (C1 C2 : Prop) [Decidable C1] [Decidable C2] (n : Nat)
    (h : ¬(C1 ∧ C2)) :
    (if C1 then n else 0) + (if C2 then n else 0) = if C1 ∨ C2 then n else 0 := by
  by_cases h1 : C1
  · rw [if_pos h1, if_neg (fun h2 => h ⟨h1, h2⟩), if_pos (Or.inl h1)]
    omega
  · rw [if_neg h1]
    by_cases h2 : C2
    · rw [if_pos h2, if_pos (Or.inr h2)]
      omega
    · rw [if_neg h2, if_neg (by tauto)]

theorem count_node_singleton_edge (a name x : String) :
    List.count (OutEvent.node a) [OutEvent.edge name x] = 0 := by
  simp [List.count_cons]

theorem count_node_singleton_node (a n : String) :
    List.count (OutEvent.node a) [OutEvent.node n] = if n = a then 1 else 0 := by
  by_cases h : n = a
  · subst h; simp
  · rw [if_neg h]
    simp [List.count_cons, h]

theorem count_edge_singleton_node (a b n : String) :
    List.count (OutEvent.edge a b) [OutEvent.node n] = 0 := by
  simp [List.count_cons]

theorem count_edge_singleton (a b name x : String) :
    List.count (OutEvent.edge a b) [OutEvent.edge name x] =
      if name = a ∧ x = b then 1 else 0 := by
  by_cases h : name = a ∧ x = b
  · obtain ⟨rfl, rfl⟩ := h
    simp
  · rw [if_neg h]
    have hb : (OutEvent.edge name x == OutEvent.edge a b) = false := by
      rw [beq_eq_false_iff_ne]
      intro hh
      injection hh with h1 h2
      exact h ⟨h1, h2⟩
    simp [List.count_cons, hb]

/-- Newly printed in a two-step composition splits exclusively by the
intermediate state. -/
theorem newly_split (a : String) {stP accP stP' : List String}
    (hmonoA : ∀ y ∈ stP, y ∈ accP) (hmonoB : ∀ y ∈ accP, y ∈ stP') (n : Nat) :
    (if a ∈ accP ∧ a ∉ stP then n else 0) + (if a ∈ stP' ∧ a ∉ accP then n else 0) =
      if a ∈ stP' ∧ a ∉ stP then n else 0 := by
  rw [if_add_if_exclusive _ _ n (fun hh => hh.2.2 hh.1.1)]
  apply if_congr ?_ rfl rfl
  constructor
  · rintro (⟨h1, h2⟩ | ⟨h1, h2⟩)
    · exact ⟨hmonoB a h1, h2⟩
    · exact ⟨h1, fun hsmem => h2 (hmonoA a hsmem)⟩
  · rintro ⟨h1, h2⟩
    by_cases hacc : a ∈ accP
    · exact Or.inl ⟨hacc, h2⟩
    · exact Or.inr ⟨h1, hacc⟩

theorem printLoop_master (g : AdjacencyGraph)
    (pn : String → TravState → Option TravState)
    (hmono : ∀ x st st', pn x st = some st' → ∀ a ∈ st.printed, a ∈ st'.printed)
    (hpn : ∀ x st st', pn x st = some st' →
      x ∈ st'.printed ∧
      ∃ Δ, st'.output = st.output ++ Δ ∧
        (∀ a, Δ.count (.node a) = if a ∈ st'.printed ∧ a ∉ st.printed then 1 else 0) ∧
        (∀ a b, Δ.count (.edge a b) =
          if a ∈ st'.printed ∧ a ∉ st.printed then (g.out_edges a).count b else 0)) :
    ∀ (xs : List String) (name : String) (sk : Bool) (st st' : TravState),
      name ∈ st.printed →
      printLoop pn name sk xs st = some st' →
      (∀ a ∈ st.printed, a ∈ st'.printed) ∧
      (∀ x ∈ xs, x ∈ st'.printed) ∧
      ∃ Δ, st'.output = st.output ++ Δ ∧
        (∀ a, Δ.count (.node a) = if a ∈ st'.printed ∧ a ∉ st.printed then 1 else 0) ∧
        (∀ a b, Δ.count (.edge a b) =
          (if a ∈ st'.printed ∧ a ∉ st.printed then (g.out_edges a).count b else 0) +
          (if sk = false ∧ a = name then xs.count b else 0)) := by
  intro xs
  induction xs with
  | nil =>
    intro name sk st st' hname h
    rw [printLoop_nil] at h
    cases h
    refine ⟨fun a ha => ha, by simp, [], by simp, ?_, ?_⟩
    · intro a
      rw [if_neg (fun hh => hh.2 hh.1)]
      simp
    · intro a b
      rw [if_neg (fun hh => hh.2 hh.1)]
      simp
  | cons x xs ih =>
    intro name sk st st' hname h
    rw [printLoop_cons] at h
    cases hx : pn x st with
    | none => rw [hx] at h; cases h
    | some acc =>
      rw [hx] at h
      have hmonoA : ∀ a ∈ st.printed, a ∈ acc.printed := hmono x st acc hx
      obtain ⟨hxacc, Δ1, hout1, hnode1, hedge1⟩ := hpn x st acc hx
      have hp2 : (if sk then acc
          else { acc with output := acc.output ++ [OutEvent.edge name x] }).printed =
          acc.printed := loopStep_printed sk name x acc
      have ho2 : (if sk then acc
          else { acc with output := acc.output ++ [OutEvent.edge name x] }).output =
          acc.output ++ (if sk then [] else [OutEvent.edge name x]) :=
        loopStep_output sk name x acc
      obtain ⟨hmonoB, hxs, Δ2, hout2, hnode2, hedge2⟩ :=
        ih name sk _ st' (by rw [hp2]; exact hmonoA name hname) h
      simp only [hp2] at hmonoB hnode2 hedge2
      rw [ho2] at hout2
      refine ⟨?_, ?_, Δ1 ++ ((if sk then [] else [OutEvent.edge name x]) ++ Δ2),
        ?_, ?_, ?_⟩
      · intro a ha
        exact hmonoB a (hmonoA a ha)
      · intro y hy
        rcases List.mem_cons.mp hy with rfl | hy'
        · exact hmonoB y hxacc
        · exact hxs y hy'
      · rw [hout2, hout1]
        simp [List.append_assoc]
      · intro a
        rw [List.count_append, List.count_append, hnode1 a, hnode2 a]
        have hE : List.count (OutEvent.node a)
            (if sk then [] else [OutEvent.edge name x]) = 0 := by
          by_cases hs : sk <;> simp [hs, count_node_singleton_edge]
        rw [hE, Nat.zero_add]
        exact newly_split a hmonoA hmonoB 1
      · intro a b
        rw [List.count_append, List.count_append, hedge1 a b, hedge2 a b]
        by_cases hs : sk = true
        · have hE : List.count (OutEvent.edge a b)
              (if sk then [] else [OutEvent.edge name x]) = 0 := by simp [hs]
          have hc1 : ¬(sk = false ∧ a = name) := fun hh => by
            rw [hs] at hh
            exact Bool.noConfusion hh.1
          simp only [hE, if_neg hc1, Nat.zero_add, Nat.add_zero]
          exact newly_split a hmonoA hmonoB _
        · have hsf : sk = false := by
            cases sk with
            | false => rfl
            | true => exact absurd rfl hs
          subst hsf
          by_cases ha : a = name
          · have hmem : a ∈ st.printed := ha ▸ hname
            have hn1 : ¬(a ∈ acc.printed ∧ a ∉ st.printed) := fun hh => hh.2 hmem
            have hn2 : ¬(a ∈ st'.printed ∧ a ∉ acc.printed) :=
              fun hh => hh.2 (hmonoA a hmem)
            have hn3 : ¬(a ∈ st'.printed ∧ a ∉ st.printed) := fun hh => hh.2 hmem
            have hE : List.count (OutEvent.edge a b)
                (if (false : Bool) then [] else [OutEvent.edge name x]) =
                if x = b then 1 else 0 := by
              simp only [Bool.false_eq_true, if_false, count_edge_singleton]
              by_cases hxb : x = b
              · rw [if_pos ⟨ha.symm, hxb⟩, if_pos hxb]
              · rw [if_neg (fun hh => hxb hh.2), if_neg hxb]
            have hcnt : List.count b (x :: xs) =
                List.count b xs + (if x = b then 1 else 0) := by
              rw [List.count_cons]
              by_cases hxb : x = b <;> simp [hxb]
            simp only [hE, if_neg hn1, if_neg hn2, if_neg hn3, eq_self_iff_true,
              true_and, if_pos ha, hcnt, Nat.zero_add, Nat.add_zero]
            omega
          · have hE0 : List.count (OutEvent.edge a b)
                (if (false : Bool) then [] else [OutEvent.edge name x]) = 0 := by
              simp only [Bool.false_eq_true, if_false, count_edge_singleton]
              rw [if_neg (fun hh => ha hh.1.symm)]
            simp only [hE0, eq_self_iff_true, true_and, if_neg ha,
              Nat.zero_add, Nat.add_zero]
            exact newly_split a hmonoA hmonoB _

theorem printNode_master : ∀ (fuel : Nat) (g : AdjacencyGraph) (name : String) (sk : Bool)
    (st st' : TravState), printNode g fuel name sk st = some st' →
    (∀ a ∈ st.printed, a ∈ st'.printed) ∧
    name ∈ st'.printed ∧
    (name ∉ st.printed → ∀ y ∈ g.out_edges name, y ∈ st'.printed) ∧
    ∃ Δ, st'.output = st.output ++ Δ ∧
      (∀ a, Δ.count (.node a) =
        if a ∈ st'.printed ∧ a ∉ st.printed ∧ ¬(sk = true ∧ a = name) then 1 else 0) ∧
      (∀ a b, Δ.count (.edge a b) =
        if a ∈ st'.printed ∧ a ∉ st.printed ∧ ¬(sk = true ∧ a = name)
        then List.count b (g.out_edges a) else 0) := by
  intro fuel
  induction fuel with
  | zero => intro g name sk st st' h; rw [printNode_zero] at h; cases h
  | succ fuel ih =>
    intro g name sk st st' h
    rw [printNode_succ] at h
    by_cases hc : st.printed.contains name
    · rw [if_pos hc] at h
      cases h
      have hnm : name ∈ st.printed := List.elem_iff.mp hc
      refine ⟨fun a ha => ha, hnm, fun hcon => absurd hnm hcon, [], by simp, ?_, ?_⟩
      · intro a
        rw [if_neg (fun hh => hh.2.1 hh.1)]
        simp
      · intro a b
        rw [if_neg (fun hh => hh.2.1 hh.1)]
        simp
    · rw [if_neg hc] at h
      have hnm : name ∉ st.printed := by
        intro hmem
        exact hc (List.elem_iff.mpr hmem)
      have hmonoP : ∀ x s s', printNode g fuel x false s = some s' →
          ∀ a ∈ s.printed, a ∈ s'.printed :=
        fun x s s' hx => printNode_printed_mono hx
      have hpnP : ∀ x s s', printNode g fuel x false s = some s' →
          x ∈ s'.printed ∧
          ∃ Δ, s'.output = s.output ++ Δ ∧
            (∀ a, Δ.count (.node a) = if a ∈ s'.printed ∧ a ∉ s.printed then 1 else 0) ∧
            (∀ a b, Δ.count (.edge a b) =
              if a ∈ s'.printed ∧ a ∉ s.printed then List.count b (g.out_edges a)
              else 0) := by
        intro x s s' hx
        obtain ⟨-, hmarks', -, Δ, hΔ, hn, he⟩ := ih g x false s s' hx
        refine ⟨hmarks', Δ, hΔ, ?_, ?_⟩
        · intro a
          rw [hn a]
          apply if_congr ?_ rfl rfl
          constructor
          · rintro ⟨h1, h2, -⟩
            exact ⟨h1, h2⟩
          · rintro ⟨h1, h2⟩
            exact ⟨h1, h2, fun hh => Bool.noConfusion hh.1⟩
        · intro a b
          rw [he a b]
          apply if_congr ?_ rfl rfl
          constructor
          · rintro ⟨h1, h2, -⟩
            exact ⟨h1, h2⟩
          · rintro ⟨h1, h2⟩
            exact ⟨h1, h2, fun hh => Bool.noConfusion hh.1⟩
      obtain ⟨hmonoL, hchildren, Δ2, hout2, hnode2, hedge2⟩ :=
        printLoop_master g _ hmonoP hpnP (g.out_edges name) name sk
          ⟨name :: st.printed, if sk then st.output else st.output ++ [.node name]⟩ st'
          (List.mem_cons_self _ _) h
      simp only [] at hmonoL hchildren hout2 hnode2 hedge2
      refine ⟨?_, ?_, ?_, (if sk then [] else [OutEvent.node name]) ++ Δ2, ?_, ?_, ?_⟩
      · intro a ha
        exact hmonoL a (List.mem_cons_of_mem _ ha)
      · exact hmonoL name (List.mem_cons_self _ _)
      · intro _ y hy
        exact hchildren y hy
      · rw [hout2]
        by_cases hsk : sk
        · simp [hsk]
        · simp [hsk, List.append_assoc]
      · intro a
        rw [List.count_append, hnode2 a]
        have hmem_cons : (a ∉ name :: st.printed) ↔ (a ≠ name ∧ a ∉ st.printed) := by
          simp [List.mem_cons, not_or]
        by_cases ha : a = name
        · subst ha
          have hd2 : (if a ∈ st'.printed ∧ a ∉ a :: st.printed then 1 else 0) = 0 :=
            if_neg (fun hh => hh.2 (List.mem_cons_self _ _))
          rw [hd2]
          by_cases hsk : sk = true
          · have hE : List.count (OutEvent.node a) (if sk then [] else [OutEvent.node a]) = 0 := by
              simp [hsk]
            rw [hE, if_neg (fun hh => hh.2.2 ⟨hsk, rfl⟩)]
          · have hsf : sk = false := by
              cases sk with
              | false => rfl
              | true => exact absurd rfl hsk
            subst hsf
            have hE : List.count (OutEvent.node a)
                (if (false : Bool) then [] else [OutEvent.node a]) = 1 := by
              simp [count_node_singleton_node]
            rw [hE, if_pos ⟨hmonoL a (List.mem_cons_self _ _), hnm,
              fun hh => Bool.noConfusion hh.1⟩]
        · have hE : List.count (OutEvent.node a) (if sk then [] else [OutEvent.node name]) = 0 := by
            by_cases hsk : sk
            · simp [hsk]
            · have hne : ¬(name = a) := fun hh => ha hh.symm
              simp [hsk, count_node_singleton_node, hne]
          rw [hE, Nat.zero_add]
          apply if_congr ?_ rfl rfl
          constructor
          · rintro ⟨h1, h2⟩
            exact ⟨h1, (hmem_cons.mp h2).2, fun hh => ha hh.2⟩
          · rintro ⟨h1, h2, -⟩
            exact ⟨h1, hmem_cons.mpr ⟨ha, h2⟩⟩
      · intro a b
        rw [List.count_append, hedge2 a b]
        have hE0 : List.count (OutEvent.edge a b)
            (if sk then [] else [OutEvent.node name]) = 0 := by
          by_cases hsk : sk
          · simp [hsk]
          · simp [hsk, count_edge_singleton_node]
        rw [hE0, Nat.zero_add]
        have hmem_cons : (a ∉ name :: st.printed) ↔ (a ≠ name ∧ a ∉ st.printed) := by
          simp [List.mem_cons, not_or]
        by_cases ha : a = name
        · subst ha
          have hd2 : (if a ∈ st'.printed ∧ a ∉ a :: st.printed
              then List.count b (g.out_edges a) else 0) = 0 :=
            if_neg (fun hh => hh.2 (List.mem_cons_self _ _))
          rw [hd2, Nat.zero_add]
          by_cases hsk : sk = true
          · have h2z : (if sk = false ∧ a = a then List.count b (g.out_edges a) else 0) = 0 :=
              if_neg (fun hh => by rw [hsk] at hh; exact Bool.noConfusion hh.1)
            rw [h2z, if_neg (fun hh => hh.2.2 ⟨hsk, rfl⟩)]
          · have hsf : sk = false := by
              cases sk with
              | false => rfl
              | true => exact absurd rfl hsk
            subst hsf
            rw [if_pos ⟨rfl, rfl⟩,
              if_pos ⟨hmonoL a (List.mem_cons_self _ _), hnm,
                fun hh => Bool.noConfusion hh.1⟩]
        · have h2z : (if sk = false ∧ a = name then List.count b (g.out_edges name) else 0) = 0 :=
            if_neg (fun hh => ha hh.2)
          rw [h2z, Nat.add_zero]
          apply if_congr ?_ rfl rfl
          constructor
          · rintro ⟨h1, h2⟩
            exact ⟨h1, (hmem_cons.mp h2).2, fun hh => ha hh.2⟩
          · rintro ⟨h1, h2, -⟩
            exact ⟨h1, hmem_cons.mpr ⟨ha, h2⟩⟩

theorem printRoots_nil (g : AdjacencyGraph) (fuel : Nat) (sk : Bool) (st : TravState) :
    printRoots g fuel sk [] st = some st := rfl

theorem printRoots_cons (g : AdjacencyGraph) (fuel : Nat) (sk : Bool) (n : String)
    (ns : List String) (st : TravState) :
    printRoots g fuel sk (n :: ns) st =
      match printNode g fuel n sk st with
      | none => none
      | some st2 => printRoots g fuel sk ns st2 := rfl

theorem printNode_spec_false (g : AdjacencyGraph) (fuel : Nat) (name : String)
    (st st' : TravState) (h : printNode g fuel name false st = some st') :
    (∀ a ∈ st.printed, a ∈ st'.printed) ∧ name ∈ st'.printed ∧
    ∃ Δ, st'.output = st.output ++ Δ ∧
      (∀ a, Δ.count (.node a) = if a ∈ st'.printed ∧ a ∉ st.printed then 1 else 0) ∧
      (∀ a b, Δ.count (.edge a b) =
        if a ∈ st'.printed ∧ a ∉ st.printed then List.count b (g.out_edges a) else 0) := by
  obtain ⟨hm, hmk, -, Δ, hΔ, hn, he⟩ := printNode_master fuel g name false st st' h
  refine ⟨hm, hmk, Δ, hΔ, ?_, ?_⟩
  · intro a
    rw [hn a]
    apply if_congr ?_ rfl rfl
    constructor
    · rintro ⟨h1, h2, -⟩
      exact ⟨h1, h2⟩
    · rintro ⟨h1, h2⟩
      exact ⟨h1, h2, fun hh => Bool.noConfusion hh.1⟩
  · intro a b
    rw [he a b]
    apply if_congr ?_ rfl rfl
    constructor
    · rintro ⟨h1, h2, -⟩
      exact ⟨h1, h2⟩
    · rintro ⟨h1, h2⟩
      exact ⟨h1, h2, fun hh => Bool.noConfusion hh.1⟩

theorem printRoots_master (g : AdjacencyGraph) (fuel : Nat) :
    ∀ (entries : List String) (st st' : TravState),
      printRoots g fuel false entries st = some st' →
      (∀ a ∈ st.printed, a ∈ st'.printed) ∧
      (∀ n ∈ entries, n ∈ st'.printed) ∧
      ∃ Δ, st'.output = st.output ++ Δ ∧
        (∀ a, Δ.count (.node a) = if a ∈ st'.printed ∧ a ∉ st.printed then 1 else 0) ∧
        (∀ a b, Δ.count (.edge a b) =
          if a ∈ st'.printed ∧ a ∉ st.printed then List.count b (g.out_edges a) else 0) := by
  intro entries
  induction entries with
  | nil =>
    intro st st' h
    rw [printRoots_nil] at h
    cases h
    refine ⟨fun a ha => ha, by simp, [], by simp, ?_, ?_⟩
    · intro a
      rw [if_neg (fun hh => hh.2 hh.1)]
      simp
    · intro a b
      rw [if_neg (fun hh => hh.2 hh.1)]
      simp
  | cons n ns ih =>
    intro st st' h
    rw [printRoots_cons] at h
    cases hn : printNode g fuel n false st with
    | none => rw [hn] at h; cases h
    | some stm =>
      rw [hn] at h
      obtain ⟨hmA, hmkA, Δ1, hΔ1, hn1, he1⟩ := printNode_spec_false g fuel n st stm hn
      obtain ⟨hmB, hns, Δ2, hΔ2, hn2, he2⟩ := ih stm st' h
      refine ⟨fun a ha => hmB a (hmA a ha), ?_, Δ1 ++ Δ2, ?_, ?_, ?_⟩
      · intro m hm
        rcases List.mem_cons.mp hm with rfl | hm'
        · exact hmB m hmkA
        · exact hns m hm'
      · rw [hΔ2, hΔ1, List.append_assoc]
      · intro a
        rw [List.count_append, hn1 a, hn2 a]
        exact newly_split a hmA hmB 1
      · intro a b
        rw [List.count_append, he1 a b, he2 a b]
        exact newly_split a hmA hmB _

theorem printRoots_marks (g : AdjacencyGraph) (fuel : Nat) (sk : Bool) :
    ∀ (entries : List String) (st st' : TravState),
      printRoots g fuel sk entries st = some st' →
      (∀ a ∈ st.printed, a ∈ st'.printed) ∧ ∀ n ∈ entries, n ∈ st'.printed := by
  intro entries
  induction entries with
  | nil =>
    intro st st' h
    rw [printRoots_nil] at h
    cases h
    exact ⟨fun a ha => ha, by simp⟩
  | cons n ns ih =>
    intro st st' h
    rw [printRoots_cons] at h
    cases hn : printNode g fuel n sk st with
    | none => rw [hn] at h; cases h
    | some stm =>
      rw [hn] at h
      obtain ⟨hmB, hns⟩ := ih stm st' h
      refine ⟨fun a ha => hmB a (printNode_printed_mono hn a ha), ?_⟩
      intro m hm
      rcases List.mem_cons.mp hm with rfl | hm'
      · exact hmB m (printNode_marks hn)
      · exact hns m hm'

theorem printRoots_isSome (g : AdjacencyGraph) (fuel : Nat) (sk : Bool) :
    ∀ (entries : List String) (st : TravState), unprinted g st.printed < fuel →
      ∃ st', printRoots g fuel sk entries st = some st' := by
  intro entries
  induction entries with
  | nil => exact fun st _ => ⟨st, rfl⟩
  | cons n ns ih =>
    intro st h
    obtain ⟨stm, hn⟩ := printNode_isSome fuel g n sk st h
    have hU : unprinted g stm.printed < fuel :=
      lt_of_le_of_lt (unprinted_le g (printNode_printed_mono hn)) h
    obtain ⟨st', h'⟩ := ih stm hU
    exact ⟨st', by rw [printRoots_cons, hn]; exact h'⟩

theorem printNode_of_printed (g : AdjacencyGraph) (fuel : Nat) (name : String) (sk : Bool)
    (st : TravState) (hf : 0 < fuel) (h : name ∈ st.printed) :
    printNode g fuel name sk st = some st := by
  cases fuel with
  | zero => exact absurd hf (by omega)
  | succ fuel => rw [printNode_succ, if_pos (List.elem_iff.mpr h)]

theorem printRoots_all_printed (g : AdjacencyGraph) (fuel : Nat) (sk : Bool)
    (hf : 0 < fuel) :
    ∀ (entries : List String) (st : TravState), (∀ n ∈ entries, n ∈ st.printed) →
      printRoots g fuel sk entries st = some st := by
  intro entries
  induction entries with
  | nil => exact fun st _ => rfl
  | cons n ns ih =>
    intro st h
    rw [printRoots_cons, printNode_of_printed g fuel n sk st hf (h n (List.mem_cons_self _ _))]
    exact ih st (fun m hm => h m (List.mem_cons_of_mem _ hm))

theorem printGraphRun_isSome (g : AdjacencyGraph) (root : Option String)
    (suppressRoots : Bool) (printed : List String) :
    ∃ st', printGraphRun g root suppressRoots printed = some st' := by
  apply printRoots_isSome
  show unprinted g printed < renderFuel g
  have h1 : unprinted g printed ≤ g.data.length := unprinted_le_length g printed
  have h2 : renderFuel g = g.data.length + 1 := rfl
  omega

/-- The DOT strategy's node/edge output of a `printNode` call on one
entry node, starting from all-clear `printed` flags. -/
def DotPrinter.printNodeText (g : AdjacencyGraph) (name : String)
    (suppressRoots : Bool) : Option String :=
  (printNode g (renderFuel g) name suppressRoots ⟨[], []⟩).map fun st =>
    DotPrinter.render st.output

/-- The GraphML strategy's node/edge output of a `printNode` call on one
entry node, starting from all-clear `printed` flags. -/
def GraphmlPrinter.printNodeText (g : AdjacencyGraph) (name : String)
    (suppressRoots : Bool) : Option String :=
  (printNode g (renderFuel g) name suppressRoots ⟨[], []⟩).map fun st =>
    GraphmlPrinter.render st.output

/-!
## Claims C1, C5, C6, C7
-/

/-- C1, counterexample: `printGraph` (lines 103–114) never clears the
`printed` flags, so rendering the same graph a second time with the same
printer emits no node or edge output at all, unlike the first render. -/
theorem printGraph_no_reset_counterexample :
    printGraphRun (AdjacencyGraph.empty.parseFile ["A=B"]) none false [] =
      some ⟨["B", "A"], [.node "A", .node "B", .edge "A" "B"]⟩ ∧
    printGraphRun (AdjacencyGraph.empty.parseFile ["A=B"]) none false ["B", "A"] =
      some ⟨["B", "A"], []⟩ ∧
    ([] : List OutEvent) ≠ [.node "A", .node "B", .edge "A" "B"] := by
  refine ⟨by decide, by decide, by decide⟩

/-- C1, amended: the renderer performs *no* reset of the visited
markers; since the first render marks every entry node as printed, a
second render call on the same state emits an *empty* node/edge output
(instead of repeating the first render's output). -/
theorem printGraph_second_render_silent (g : AdjacencyGraph) (root : Option String)
    (suppressRoots : Bool) :
    ∃ st₁ st₂, printGraphRun g root suppressRoots [] = some st₁ ∧
      printGraphRun g root suppressRoots st₁.printed = some st₂ ∧
      st₂.output = [] := by
  obtain ⟨st₁, h₁⟩ := printGraphRun_isSome g root suppressRoots []
  have hmarks := printRoots_marks g (renderFuel g) suppressRoots
    (g.nodes.filter (rootFilter g root)) ⟨[], []⟩ st₁ h₁
  refine ⟨st₁, ⟨st₁.printed, []⟩, h₁, ?_, rfl⟩
  exact printRoots_all_printed g (renderFuel g) suppressRoots
    (by show 0 < g.data.length + 1; omega) _ ⟨st₁.printed, []⟩
    (fun n hn => hmarks.2 n hn)

/-- C5: for every graph — cyclic or not — and every entry node, the
recursive traversal shared by the two printers terminates with fuel
`renderFuel g` (one more than the number of node objects), and hence
both the DOT and the GraphML rendering of that traversal are defined. -/
theorem printNode_terminates (g : AdjacencyGraph) (name : String) (sk : Bool) :
    ∃ st', printNode g (renderFuel g) name sk ⟨[], []⟩ = some st' ∧
      DotPrinter.printNodeText g name sk = some (DotPrinter.render st'.output) ∧
      GraphmlPrinter.printNodeText g name sk = some (GraphmlPrinter.render st'.output) := by
  obtain ⟨st', h⟩ := printNode_isSome (renderFuel g) g name sk ⟨[], []⟩ (by
    show unprinted g [] < renderFuel g
    have h1 : unprinted g [] ≤ g.data.length := unprinted_le_length g []
    have h2 : renderFuel g = g.data.length + 1 := rfl
    omega)
  refine ⟨st', h, ?_, ?_⟩
  · unfold DotPrinter.printNodeText
    rw [h]
    rfl
  · unfold GraphmlPrinter.printNodeText
    rw [h]
    rfl

/-- C6: in a full render pass without root suppression, starting from
all-clear visited flags, every visited node is emitted exactly once
(unvisited: zero times) and, for every visited node `a`, the edge
`a → b` is emitted exactly as many times as `b` occurs in `a`'s
out-edge list — in particular edges to already-visited targets are
still emitted; both strategies render exactly these events. -/
theorem render_counts_exact (g : AdjacencyGraph) (root : Option String) :
    ∃ st', printGraphRun g root false [] = some st' ∧
      (∀ a, st'.output.count (OutEvent.node a) = if a ∈ st'.printed then 1 else 0) ∧
      (∀ a b, st'.output.count (OutEvent.edge a b) =
        if a ∈ st'.printed then List.count b (g.out_edges a) else 0) ∧
      DotPrinter.printGraphText g root false [] = some (DotPrinter.render st'.output) ∧
      GraphmlPrinter.printGraphText g root false [] =
        some (GraphmlPrinter.render st'.output) := by
  obtain ⟨st', h⟩ := printGraphRun_isSome g root false []
  obtain ⟨-, -, Δ, hΔ, hn, he⟩ :=
    printRoots_master g (renderFuel g) (g.nodes.filter (rootFilter g root)) ⟨[], []⟩ st' h
  have hout : st'.output = Δ := by
    rw [hΔ]
    rfl
  refine ⟨st', h, ?_, ?_, ?_, ?_⟩
  · intro a
    rw [hout, hn a]
    apply if_congr ?_ rfl rfl
    exact ⟨fun hh => hh.1, fun hh => ⟨hh, List.not_mem_nil a⟩⟩
  · intro a b
    rw [hout, he a b]
    apply if_congr ?_ rfl rfl
    exact ⟨fun hh => hh.1, fun hh => ⟨hh, List.not_mem_nil a⟩⟩
  · unfold DotPrinter.printGraphText
    rw [show printGraphRun g root false [] = some st' from h]
    rfl
  · unfold GraphmlPrinter.printGraphText
    rw [show printGraphRun g root false [] = some st' from h]
    rfl

theorem printLoop_marks (pn : String → TravState → Option TravState)
    (hext : ∀ x s s', pn x s = some s' →
      (∃ P, s'.printed = P ++ s.printed) ∧ ∃ Δ, s'.output = s.output ++ Δ)
    (hmk : ∀ x s s', pn x s = some s' → x ∈ s'.printed) :
    ∀ (xs : List String) (name : String) (sk : Bool) (st st' : TravState),
      printLoop pn name sk xs st = some st' → ∀ x ∈ xs, x ∈ st'.printed := by
  intro xs
  induction xs with
  | nil =>
    intro name sk st st' h x hx
    cases hx
  | cons x0 xs ih =>
    intro name sk st st' h x hx
    rw [printLoop_cons] at h
    cases hx0 : pn x0 st with
    | none => rw [hx0] at h; cases h
    | some acc =>
      rw [hx0] at h
      rcases List.mem_cons.mp hx with rfl | hx'
      · obtain ⟨⟨P, hP⟩, -⟩ := printLoop_extend pn hext xs name sk _ st' h
        rw [hP, loopStep_printed]
        exact List.mem_append_right _ (hmk x st acc hx0)
      · exact ih name sk _ st' h x hx'

/-- Every node that becomes printed during a loop has all of its
out-edge targets printed by the end of the loop, provided the child
call `pn` has the same property. -/
theorem printLoop_closure (g : AdjacencyGraph) (pn : String → TravState → Option TravState)
    (hext : ∀ x s s', pn x s = some s' →
      (∃ P, s'.printed = P ++ s.printed) ∧ ∃ Δ, s'.output = s.output ++ Δ)
    (hclo : ∀ x s s', pn x s = some s' →
      ∀ a ∈ s'.printed, a ∉ s.printed → ∀ y ∈ g.out_edges a, y ∈ s'.printed) :
    ∀ (xs : List String) (name : String) (sk : Bool) (st st' : TravState),
      printLoop pn name sk xs st = some st' →
      ∀ a ∈ st'.printed, a ∉ st.printed → ∀ y ∈ g.out_edges a, y ∈ st'.printed := by
  intro xs
  induction xs with
  | nil =>
    intro name sk st st' h a ha hnew y hy
    rw [printLoop_nil] at h
    cases h
    exact absurd ha hnew
  | cons x xs ih =>
    intro name sk st st' h a ha hnew y hy
    rw [printLoop_cons] at h
    cases hx : pn x st with
    | none => rw [hx] at h; cases h
    | some acc =>
      rw [hx] at h
      by_cases hacc : a ∈ acc.printed
      · have hyacc : y ∈ acc.printed := hclo x st acc hx a hacc hnew y hy
        obtain ⟨⟨P, hP⟩, -⟩ := printLoop_extend pn hext xs name sk _ st' h
        rw [hP, loopStep_printed]
        exact List.mem_append_right _ hyacc
      · exact ih name sk _ st' h a ha (by rw [loopStep_printed]; exact hacc) y hy

/-- Every node that becomes printed during a `printNode` call has all of
its out-edge targets printed by the end of the call: once a node is
first visited, its whole children loop runs to completion. -/
theorem printNode_closure : ∀ (fuel : Nat) (g : AdjacencyGraph) (name : String) (sk : Bool)
    (st st' : TravState), printNode g fuel name sk st = some st' →
    ∀ a ∈ st'.printed, a ∉ st.printed → ∀ y ∈ g.out_edges a, y ∈ st'.printed := by
  intro fuel
  induction fuel with
  | zero => intro g name sk st st' h; rw [printNode_zero] at h; cases h
  | succ fuel ih =>
    intro g name sk st st' h a ha hnew y hy
    rw [printNode_succ] at h
    by_cases hc : st.printed.contains name
    · rw [if_pos hc] at h
      cases h
      exact absurd ha hnew
    · rw [if_neg hc] at h
      have hext' : ∀ x s s', printNode g fuel x false s = some s' →
          (∃ P, s'.printed = P ++ s.printed) ∧ ∃ Δ, s'.output = s.output ++ Δ :=
        fun x s s' hx => printNode_extend fuel g x false s s' hx
      by_cases han : a = name
      · subst han
        exact printLoop_marks _ hext'
          (fun x s s' hx => printNode_marks hx) (g.out_edges a) a sk _ st' h y hy
      · have hne1 : a ∉ (⟨name :: st.printed,
            if sk then st.output else st.output ++ [.node name]⟩ : TravState).printed := by
          intro hmem
          rcases List.mem_cons.mp hmem with h1 | h2
          · exact han h1
          · exact hnew h2
        exact printLoop_closure g _ hext'
          (fun x s s' hx => ih g x false s s' hx)
          (g.out_edges name) name sk _ st' h a ha hne1 y hy

/-- C7: rendering an entry node `R` in suppress-roots mode omits `R`'s
node declaration and all of `R`'s out-edges, but still visits `R`'s
children and recursively their whole subtrees: every node reachable
from a child `X` by out-edges is visited, and every visited node other
than `R` — in particular every node of `X`'s subtree — is emitted
exactly once together with its complete out-edge list. -/
theorem suppress_roots_render (g : AdjacencyGraph) (R X : String)
    (hX : X ∈ g.out_edges R) (hne : X ≠ R) :
    ∃ st', printNode g (renderFuel g) R true ⟨[], []⟩ = some st' ∧
      st'.output.count (OutEvent.node R) = 0 ∧
      (∀ b, st'.output.count (OutEvent.edge R b) = 0) ∧
      X ∈ st'.printed ∧
      (∀ d, Relation.ReflTransGen (fun a b => b ∈ g.out_edges a) X d →
        d ∈ st'.printed) ∧
      st'.output.count (OutEvent.node X) = 1 ∧
      (∀ b, st'.output.count (OutEvent.edge X b) = List.count b (g.out_edges X)) ∧
      (∀ a, a ∈ st'.printed → a ≠ R →
        st'.output.count (OutEvent.node a) = 1 ∧
        ∀ b, st'.output.count (OutEvent.edge a b) = List.count b (g.out_edges a)) ∧
      (∀ d, Relation.ReflTransGen (fun a b => b ∈ g.out_edges a) X d → d ≠ R →
        st'.output.count (OutEvent.node d) = 1 ∧
        ∀ b, st'.output.count (OutEvent.edge d b) = List.count b (g.out_edges d)) := by
  obtain ⟨st', h⟩ := printNode_isSome (renderFuel g) g R true ⟨[], []⟩ (by
    show unprinted g [] < renderFuel g
    have h1 : unprinted g [] ≤ g.data.length := unprinted_le_length g []
    have h2 : renderFuel g = g.data.length + 1 := rfl
    omega)
  obtain ⟨-, hmkR, hch, Δ, hΔ, hn, he⟩ :=
    printNode_master (renderFuel g) g R true ⟨[], []⟩ st' h
  have hout : st'.output = Δ := by
    rw [hΔ]
    rfl
  have hnil : ∀ a : String, a ∉ (⟨[], []⟩ : TravState).printed :=
    fun a => List.not_mem_nil a
  have hXp : X ∈ st'.printed := hch (hnil R) X hX
  have hclo : ∀ a ∈ st'.printed, ∀ y ∈ g.out_edges a, y ∈ st'.printed :=
    fun a ha y hy =>
      printNode_closure (renderFuel g) g R true ⟨[], []⟩ st' h a ha (hnil a) y hy
  have hreach : ∀ d, Relation.ReflTransGen (fun a b => b ∈ g.out_edges a) X d →
      d ∈ st'.printed := by
    intro d hd
    induction hd with
    | refl => exact hXp
    | tail hr hstep ih => exact hclo _ ih _ hstep
  refine ⟨st', h, ?_, ?_, hXp, hreach, ?_, ?_, ?_, ?_⟩
  · rw [hout, hn R, if_neg (fun hh => hh.2.2 ⟨rfl, rfl⟩)]
  · intro b
    rw [hout, he R b, if_neg (fun hh => hh.2.2 ⟨rfl, rfl⟩)]
  · rw [hout, hn X, if_pos ⟨hXp, hnil X, fun hh => hne hh.2⟩]
  · intro b
    rw [hout, he X b, if_pos ⟨hXp, hnil X, fun hh => hne hh.2⟩]
  · intro a hap haR
    constructor
    · rw [hout, hn a, if_pos ⟨hap, hnil a, fun hh => haR hh.2⟩]
    · intro b
      rw [hout, he a b, if_pos ⟨hap, hnil a, fun hh => haR hh.2⟩]
  · intro d hd hdR
    constructor
    · rw [hout, hn d, if_pos ⟨hreach d hd, hnil d, fun hh => hdR hh.2⟩]
    · intro b
      rw [hout, he d b, if_pos ⟨hreach d hd, hnil d, fun hh => hdR hh.2⟩]

/-- Concrete graph for the C7 witness: `R → X, Y` and `X → W` (so `W`
is a grandchild of the suppressed root). -/
def gC7 : AdjacencyGraph := AdjacencyGraph.empty.parseFile ["R=X,Y", "X=W"]

theorem suppress_roots_render_witness :
    ("X" ∈ gC7.out_edges "R" ∧ ("X" : String) ≠ "R") ∧
    (∃ st', printNode gC7 (renderFuel gC7) "R" true ⟨[], []⟩ = some st' ∧
      st'.output.count (OutEvent.node "R") = 0 ∧
      (∀ b, st'.output.count (OutEvent.edge "R" b) = 0) ∧
      "X" ∈ st'.printed ∧
      (∀ d, Relation.ReflTransGen (fun a b => b ∈ gC7.out_edges a) "X" d →
        d ∈ st'.printed) ∧
      st'.output.count (OutEvent.node "X") = 1 ∧
      (∀ b, st'.output.count (OutEvent.edge "X" b) = List.count b (gC7.out_edges "X")) ∧
      (∀ a, a ∈ st'.printed → a ≠ "R" →
        st'.output.count (OutEvent.node a) = 1 ∧
        ∀ b, st'.output.count (OutEvent.edge a b) = List.count b (gC7.out_edges a)) ∧
      (∀ d, Relation.ReflTransGen (fun a b => b ∈ gC7.out_edges a) "X" d → d ≠ "R" →
        st'.output.count (OutEvent.node d) = 1 ∧
        ∀ b, st'.output.count (OutEvent.edge d b) = List.count b (gC7.out_edges d))) :=
  ⟨⟨by decide, by decide⟩, suppress_roots_render gC7 "R" "X" (by decide) (by decide)⟩

/-!
## Attribute lemmas and claims C8, C9, C10
-/

theorem setAttr_lookup_self (attrs : List (String × PyVal)) (k : String) (v : PyVal) :
    (setAttr attrs k v).lookup k = some v := by
  induction attrs with
  | nil => simp [setAttr, List.lookup]
  | cons p rest ih =>
    cases p with
    | mk k' v' =>
      by_cases h : k' = k
      · simp [setAttr, h, List.lookup]
      · simp only [setAttr, h, if_false, List.lookup]
        rw [show (k == k') = false from beq_eq_false_iff_ne.mpr (fun hh => h hh.symm)]
        exact ih

theorem setAttr_lookup_other (attrs : List (String × PyVal)) (k : String) (v : PyVal)
    (k' : String) (h : k' ≠ k) :
    (setAttr attrs k v).lookup k' = attrs.lookup k' := by
  induction attrs with
  | nil =>
    simp only [setAttr, List.lookup]
    rw [show (k' == k) = false from beq_eq_false_iff_ne.mpr h]
  | cons p rest ih =>
    cases p with
    | mk k0 v0 =>
      by_cases h0 : k0 = k
      · subst h0
        simp only [setAttr, if_pos rfl, List.lookup]
        rw [show (k' == k0) = false from beq_eq_false_iff_ne.mpr h]
      · simp only [setAttr, h0, if_false, List.lookup]
        cases hbeq : k' == k0 with
        | true => rfl
        | false => exact ih

theorem PNode.get_set_self (n : PNode) (k : String) (v : PyVal) :
    (n.set k v).get k = some v :=
  setAttr_lookup_self n.attrs k v

theorem PNode.get_set_other (n : PNode) (k : String) (v : PyVal) (k' : String)
    (h : k' ≠ k) : (n.set k v).get k' = n.get k' :=
  setAttr_lookup_other n.attrs k v k' h

theorem PNode.set_name (n : PNode) (k : String) (v : PyVal) :
    (n.set k v).name = n.name := rfl

/-- The version set an attribute value denotes: a Python `set` is
itself, anything else (absent, string) denotes the empty set. -/
def vsetOf : Option PyVal → Finset String
  | some (.vset s) => s
  | _ => ∅

/-- The reserved `'versions'` attribute discipline: absent or a set
(never a string) — what holds for every node the script feeds into
`merge_graphs` and `clean_version_tag`. -/
def isSetOrAbsent : Option PyVal → Bool
  | none => true
  | some (.vset _) => true
  | some (.str _) => false

/-- C9: `clean_version_tag` sets the conflict shape exactly when the
reserved `'versions'` set has more than one element (otherwise the
shape attribute is untouched); it applies the default conflict fill
(`style=filled`, `fillcolor=#ffffff`) exactly when it marks a conflict
*and* the node has no truthy `'style'` yet (otherwise style and
fillcolor are untouched); and it always blanks `'versions'` to `" "`. -/
theorem clean_version_tag_spec (n : PNode)
    (hv : isSetOrAbsent (n.get "versions") = true) :
    ((SquashVersionRule.clean_version_tag n).get "shape" =
      if 1 < (vsetOf (n.get "versions")).card then some (.str "tripleoctagon")
      else n.get "shape") ∧
    ((SquashVersionRule.clean_version_tag n).get "style" =
      if 1 < (vsetOf (n.get "versions")).card ∧ pyTruthy (n.get "style") = false
      then some (.str "filled") else n.get "style") ∧
    ((SquashVersionRule.clean_version_tag n).get "fillcolor" =
      if 1 < (vsetOf (n.get "versions")).card ∧ pyTruthy (n.get "style") = false
      then some (.str DEFAULT_COLORS_conflict) else n.get "fillcolor") ∧
    (SquashVersionRule.clean_version_tag n).get "versions" = some (.str " ") := by
  cases hval : n.get "versions" with
  | none =>
    have heq : SquashVersionRule.clean_version_tag n = n.set "versions" (.str " ") := by
      unfold SquashVersionRule.clean_version_tag
      rw [hval]
    have hnc : ¬ 1 < (vsetOf (none : Option PyVal)).card := by decide
    rw [heq]
    refine ⟨?_, ?_, ?_, PNode.get_set_self n "versions" _⟩
    · rw [PNode.get_set_other n "versions" _ "shape" (by decide), if_neg hnc]
    · rw [PNode.get_set_other n "versions" _ "style" (by decide),
        if_neg (fun hh => hnc hh.1)]
    · rw [PNode.get_set_other n "versions" _ "fillcolor" (by decide),
        if_neg (fun hh => hnc hh.1)]
  | some val =>
    cases val with
    | str s =>
      rw [hval] at hv
      exact absurd hv (by simp [isSetOrAbsent])
    | vset vs =>
      by_cases hcard : 1 < vs.card
      · have hne : vs ≠ ∅ := by
          intro h0
          rw [h0] at hcard
          simp at hcard
        have htr : (PyVal.vset vs).truthy = true := by
          simp [PyVal.truthy, hne]
        have hlen : (PyVal.vset vs).pyLen = vs.card := rfl
        by_cases hsty : pyTruthy (n.get "style") = true
        · have hsty' : ¬ (pyTruthy (n.get "style") = false) := by
            rw [hsty]
            exact fun h => Bool.noConfusion h
          have heq : SquashVersionRule.clean_version_tag n =
              (n.set "shape" (.str "tripleoctagon")).set "versions" (.str " ") := by
            unfold SquashVersionRule.clean_version_tag
            rw [hval]
            simp only [htr, if_true, hlen, if_pos hcard]
            rw [PNode.get_set_other n "shape" _ "style" (by decide), hsty]
            simp
          rw [heq]
          refine ⟨?_, ?_, ?_, PNode.get_set_self _ "versions" _⟩
          · rw [PNode.get_set_other _ "versions" _ "shape" (by decide),
              PNode.get_set_self n "shape" _,
              if_pos (show 1 < (vsetOf (some (PyVal.vset vs))).card from hcard)]
          · rw [PNode.get_set_other _ "versions" _ "style" (by decide),
              PNode.get_set_other n "shape" _ "style" (by decide),
              if_neg (fun hh => hsty' hh.2)]
          · rw [PNode.get_set_other _ "versions" _ "fillcolor" (by decide),
              PNode.get_set_other n "shape" _ "fillcolor" (by decide),
              if_neg (fun hh => hsty' hh.2)]
        · have hsty0 : pyTruthy (n.get "style") = false := by
            cases h2 : pyTruthy (n.get "style") with
            | false => rfl
            | true => exact absurd h2 hsty
          have heq : SquashVersionRule.clean_version_tag n =
              (((n.set "shape" (.str "tripleoctagon")).set "style"
                  (.str "filled")).set "fillcolor"
                  (.str DEFAULT_COLORS_conflict)).set "versions" (.str " ") := by
            unfold SquashVersionRule.clean_version_tag
            rw [hval]
            simp only [htr, if_true, hlen, if_pos hcard]
            rw [PNode.get_set_other n "shape" _ "style" (by decide), hsty0]
            simp
          rw [heq]
          refine ⟨?_, ?_, ?_, PNode.get_set_self _ "versions" _⟩
          · rw [PNode.get_set_other _ "versions" _ "shape" (by decide),
              PNode.get_set_other _ "fillcolor" _ "shape" (by decide),
              PNode.get_set_other _ "style" _ "shape" (by decide),
              PNode.get_set_self n "shape" _,
              if_pos (show 1 < (vsetOf (some (PyVal.vset vs))).card from hcard)]
          · rw [PNode.get_set_other _ "versions" _ "style" (by decide),
              PNode.get_set_other _ "fillcolor" _ "style" (by decide),
              PNode.get_set_self _ "style" _,
              if_pos ⟨show 1 < (vsetOf (some (PyVal.vset vs))).card from hcard, hsty0⟩]
          · rw [PNode.get_set_other _ "versions" _ "fillcolor" (by decide),
              PNode.get_set_self _ "fillcolor" _,
              if_pos ⟨show 1 < (vsetOf (some (PyVal.vset vs))).card from hcard, hsty0⟩]
      · have heq : SquashVersionRule.clean_version_tag n = n.set "versions" (.str " ") := by
          unfold SquashVersionRule.clean_version_tag
          rw [hval]
          by_cases htr : (PyVal.vset vs).truthy = true
          · simp only [htr, if_true]
            rw [show (PyVal.vset vs).pyLen = vs.card from rfl, if_neg hcard]
          · have htr0 : (PyVal.vset vs).truthy = false := by
              cases h2 : (PyVal.vset vs).truthy with
              | false => rfl
              | true => exact absurd h2 htr
            simp only [htr0]
            simp
        have hnc : ¬ 1 < (vsetOf (some (PyVal.vset vs))).card := hcard
        rw [heq]
        refine ⟨?_, ?_, ?_, PNode.get_set_self n "versions" _⟩
        · rw [PNode.get_set_other n "versions" _ "shape" (by decide), if_neg hnc]
        · rw [PNode.get_set_other n "versions" _ "style" (by decide),
            if_neg (fun hh => hnc hh.1)]
        · rw [PNode.get_set_other n "versions" _ "fillcolor" (by decide),
            if_neg (fun hh => hnc hh.1)]

theorem clean_version_tag_spec_witness :
    isSetOrAbsent ((⟨"A", [("versions", PyVal.vset {"x", "y"})]⟩ : PNode).get
        "versions") = true ∧
    ((SquashVersionRule.clean_version_tag
        ⟨"A", [("versions", PyVal.vset {"x", "y"})]⟩).get "shape" =
      if 1 < (vsetOf ((⟨"A", [("versions", PyVal.vset {"x", "y"})]⟩ : PNode).get
          "versions")).card
      then some (.str "tripleoctagon")
      else (⟨"A", [("versions", PyVal.vset {"x", "y"})]⟩ : PNode).get "shape") ∧
    ((SquashVersionRule.clean_version_tag
        ⟨"A", [("versions", PyVal.vset {"x", "y"})]⟩).get "style" =
      if 1 < (vsetOf ((⟨"A", [("versions", PyVal.vset {"x", "y"})]⟩ : PNode).get
            "versions")).card ∧
          pyTruthy ((⟨"A", [("versions", PyVal.vset {"x", "y"})]⟩ : PNode).get
            "style") = false
      then some (.str "filled")
      else (⟨"A", [("versions", PyVal.vset {"x", "y"})]⟩ : PNode).get "style") ∧
    ((SquashVersionRule.clean_version_tag
        ⟨"A", [("versions", PyVal.vset {"x", "y"})]⟩).get "fillcolor" =
      if 1 < (vsetOf ((⟨"A", [("versions", PyVal.vset {"x", "y"})]⟩ : PNode).get
            "versions")).card ∧
          pyTruthy ((⟨"A", [("versions", PyVal.vset {"x", "y"})]⟩ : PNode).get
            "style") = false
      then some (.str DEFAULT_COLORS_conflict)
      else (⟨"A", [("versions", PyVal.vset {"x", "y"})]⟩ : PNode).get "fillcolor") ∧
    (SquashVersionRule.clean_version_tag
        ⟨"A", [("versions", PyVal.vset {"x", "y"})]⟩).get "versions" =
      some (.str " ") :=
  ⟨by decide, clean_version_tag_spec ⟨"A", [("versions", PyVal.vset {"x", "y"})]⟩
    (by decide)⟩

theorem foldl_set_name (attrs : List (String × PyVal)) :
    ∀ n : PNode, (attrs.foldl (fun n a => n.set a.1 a.2) n).name = n.name := by
  induction attrs with
  | nil => exact fun n => rfl
  | cons a rest ih =>
    intro n
    rw [List.foldl_cons, ih (n.set a.1 a.2), PNode.set_name]

theorem foldl_set_get_not_mem (attrs : List (String × PyVal)) (k : String)
    (h : k ∉ attrs.map Prod.fst) :
    ∀ n : PNode, (attrs.foldl (fun n a => n.set a.1 a.2) n).get k = n.get k := by
  induction attrs with
  | nil => exact fun n => rfl
  | cons a rest ih =>
    intro n
    simp only [List.map_cons, List.mem_cons] at h
    push_neg at h
    rw [List.foldl_cons, ih h.2 (n.set a.1 a.2), PNode.get_set_other n a.1 a.2 k h.1]

theorem foldl_set_get_lookup (attrs : List (String × PyVal))
    (hnd : (attrs.map Prod.fst).Nodup) (k : String) (v : PyVal)
    (h : attrs.lookup k = some v) :
    ∀ n : PNode, (attrs.foldl (fun n a => n.set a.1 a.2) n).get k = some v := by
  induction attrs with
  | nil => cases h
  | cons a rest ih =>
    intro n
    cases a with
    | mk k0 v0 =>
      simp only [List.map_cons, List.nodup_cons] at hnd
      by_cases hk : k = k0
      · subst hk
        simp only [List.lookup, beq_self_eq_true] at h
        cases h
        rw [List.foldl_cons, foldl_set_get_not_mem rest k hnd.1, PNode.get_set_self]
      · simp only [List.lookup] at h
        rw [show (k == k0) = false from beq_eq_false_iff_ne.mpr hk] at h
        rw [List.foldl_cons]
        exact ih hnd.2 h (n.set k0 v0)

/-- C10: applying a style rule to a node name that matches the pattern
but has no node entry appends a new node carrying that name to the
graph, and after application the new node carries every attribute of
the rule (rule application can grow the node set). -/
theorem apply_node_creates_node (r : NodeStyleRule) (g : PyGraph) (node_name : String)
    (hm : r.match_pattern node_name = true) (habs : g.get_node node_name = [])
    (hnd : (r.style_attributes.map Prod.fst).Nodup) :
    ∃ n', (r.apply_node g node_name).nodes = g.nodes ++ [n'] ∧
      n'.name = node_name ∧
      ∀ k v, r.style_attributes.lookup k = some v → n'.get k = some v := by
  refine ⟨r.copy_attributes ⟨node_name, []⟩, ?_, ?_, ?_⟩
  · unfold NodeStyleRule.apply_node
    rw [hm, habs]
    rfl
  · unfold NodeStyleRule.copy_attributes
    exact foldl_set_name r.style_attributes ⟨node_name, []⟩
  · intro k v h
    unfold NodeStyleRule.copy_attributes
    exact foldl_set_get_lookup r.style_attributes hnd k v h ⟨node_name, []⟩

/-- Concrete rule for the C10 witness: the wildcard global rule with two
style attributes (models the JSON example in `NodeStyleRule.from_json`). -/
def ruleC10 : NodeStyleRule :=
  NodeStyleRule.globalRule [("fillcolor", .str "#ff0000"), ("style", .str "filled")]

theorem apply_node_creates_node_witness :
    (ruleC10.match_pattern "A" = true ∧
      (⟨[], []⟩ : PyGraph).get_node "A" = [] ∧
      (ruleC10.style_attributes.map Prod.fst).Nodup) ∧
    ∃ n', (ruleC10.apply_node ⟨[], []⟩ "A").nodes = (⟨[], []⟩ : PyGraph).nodes ++ [n'] ∧
      n'.name = "A" ∧
      ∀ k v, ruleC10.style_attributes.lookup k = some v → n'.get k = some v :=
  ⟨⟨rfl, by decide, by decide⟩,
    apply_node_creates_node ruleC10 ⟨[], []⟩ "A" rfl (by decide) (by decide)⟩

/-- The union of all version sets carried by nodes named `x` in a node
list. -/
def versionsOfNodes : List PNode → String → Finset String
  | [], _ => ∅
  | n :: ns, x =>
    if n.name = x then vsetOf (n.get "versions") ∪ versionsOfNodes ns x
    else versionsOfNodes ns x

/-- The union of all version sets carried by nodes named `x` in a graph. -/
def versionsOf (g : PyGraph) (x : String) : Finset String :=
  versionsOfNodes g.nodes x

theorem versionsOfNodes_nil (x : String) : versionsOfNodes [] x = ∅ := rfl

theorem versionsOfNodes_cons (n : PNode) (ns : List PNode) (x : String) :
    versionsOfNodes (n :: ns) x =
      if n.name = x then vsetOf (n.get "versions") ∪ versionsOfNodes ns x
      else versionsOfNodes ns x := rfl

theorem versionsOfNodes_append (l1 l2 : List PNode) (x : String) :
    versionsOfNodes (l1 ++ l2) x = versionsOfNodes l1 x ∪ versionsOfNodes l2 x := by
  induction l1 with
  | nil => rw [List.nil_append, versionsOfNodes_nil, Finset.empty_union]
  | cons n t ih =>
    rw [List.cons_append, versionsOfNodes_cons, versionsOfNodes_cons, ih]
    by_cases h : n.name = x
    · rw [if_pos h, if_pos h, Finset.union_assoc]
    · rw [if_neg h, if_neg h]

theorem updateFirst_nil (x0 : String) (f : PNode → PNode) :
    updateFirst x0 f [] = [] := rfl

theorem updateFirst_cons (x0 : String) (f : PNode → PNode) (n : PNode)
    (rest : List PNode) :
    updateFirst x0 f (n :: rest) =
      if n.name = x0 then f n :: rest else n :: updateFirst x0 f rest := rfl

theorem updateFirst_names (x0 : String) (f : PNode → PNode)
    (hf : ∀ n, (f n).name = n.name) :
    ∀ ns : List PNode, (updateFirst x0 f ns).map PNode.name = ns.map PNode.name := by
  intro ns
  induction ns with
  | nil => rfl
  | cons n t ih =>
    rw [updateFirst_cons]
    by_cases h : n.name = x0
    · rw [if_pos h, List.map_cons, List.map_cons, hf n]
    · rw [if_neg h, List.map_cons, List.map_cons, ih]

theorem mem_updateFirst (x0 : String) (f : PNode → PNode) :
    ∀ (ns : List PNode) (m : PNode), m ∈ updateFirst x0 f ns →
      m ∈ ns ∨ ∃ n ∈ ns, m = f n := by
  intro ns
  induction ns with
  | nil => intro m hm; cases hm
  | cons n t ih =>
    intro m hm
    rw [updateFirst_cons] at hm
    by_cases h : n.name = x0
    · rw [if_pos h] at hm
      rcases List.mem_cons.mp hm with rfl | hm'
      · exact Or.inr ⟨n, List.mem_cons_self _ _, rfl⟩
      · exact Or.inl (List.mem_cons_of_mem _ hm')
    · rw [if_neg h] at hm
      rcases List.mem_cons.mp hm with rfl | hm'
      · exact Or.inl (List.mem_cons_self _ _)
      · rcases ih m hm' with h1 | ⟨n0, hn0, rfl⟩
        · exact Or.inl (List.mem_cons_of_mem _ h1)
        · exact Or.inr ⟨n0, List.mem_cons_of_mem _ hn0, rfl⟩

theorem versionsOfNodes_updateFirst (x0 x : String) (f : PNode → PNode)
    (S : Finset String) (hfname : ∀ n, (f n).name = n.name) :
    ∀ ns : List PNode,
      (∀ n ∈ ns, vsetOf ((f n).get "versions") = vsetOf (n.get "versions") ∪ S) →
      (ns.map PNode.name).Nodup →
      (∃ n0 ∈ ns, n0.name = x0) →
      versionsOfNodes (updateFirst x0 f ns) x =
        if x = x0 then versionsOfNodes ns x ∪ S else versionsOfNodes ns x := by
  intro ns
  induction ns with
  | nil =>
    intro _ _ hex
    exact absurd hex (by simp)
  | cons n t ih =>
    intro hfv hnd hex
    rw [updateFirst_cons]
    by_cases hn : n.name = x0
    · rw [if_pos hn, versionsOfNodes_cons, versionsOfNodes_cons, hfname n]
      by_cases hx : x = x0
      · have hnx : n.name = x := by rw [hn, hx]
        rw [if_pos hx, if_pos hnx, if_pos hnx, hfv n (List.mem_cons_self _ _),
          Finset.union_assoc, Finset.union_assoc, Finset.union_comm S _]
      · have hnx : ¬ n.name = x := fun hh => hx (by rw [← hh, hn])
        rw [if_neg hx, if_neg hnx, if_neg hnx]
    · rw [if_neg hn, versionsOfNodes_cons, versionsOfNodes_cons]
      have hex' : ∃ n0 ∈ t, n0.name = x0 := by
        obtain ⟨n0, hmem, hname⟩ := hex
        rcases List.mem_cons.mp hmem with rfl | hmem'
        · exact absurd hname hn
        · exact ⟨n0, hmem', hname⟩
      have hnd' : (t.map PNode.name).Nodup := by
        simp only [List.map_cons, List.nodup_cons] at hnd
        exact hnd.2
      have ihh := ih (fun m hm => hfv m (List.mem_cons_of_mem _ hm)) hnd' hex'
      by_cases hx : x = x0
      · rw [if_pos hx] at ihh
        rw [if_pos hx, ihh]
        by_cases hnx : n.name = x
        · rw [if_pos hnx, if_pos hnx, Finset.union_assoc]
        · rw [if_neg hnx, if_neg hnx]
      · rw [if_neg hx] at ihh
        rw [if_neg hx, ihh]

theorem mergeVersionsAttr_name (nn mn : PNode) :
    (mergeVersionsAttr nn mn).name = mn.name := by
  unfold mergeVersionsAttr
  by_cases h1 : (pyTruthy (mn.get "versions") && pyTruthy (nn.get "versions")) = true
  · rw [if_pos h1, PNode.set_name]
  · rw [if_neg h1]
    by_cases h2 : pyTruthy (nn.get "versions") = true
    · rw [if_pos h2, PNode.set_name]
    · rw [if_neg h2]

theorem mergeVersionsAttr_spec (nn mn : PNode)
    (hm : isSetOrAbsent (mn.get "versions") = true)
    (hn : isSetOrAbsent (nn.get "versions") = true) :
    isSetOrAbsent ((mergeVersionsAttr nn mn).get "versions") = true ∧
    vsetOf ((mergeVersionsAttr nn mn).get "versions") =
      vsetOf (mn.get "versions") ∪ vsetOf (nn.get "versions") := by
  unfold mergeVersionsAttr
  cases hmv : mn.get "versions" with
  | none =>
    cases hnv : nn.get "versions" with
    | none =>
      simp only [pyTruthy, Bool.false_and, Bool.false_eq_true, if_false]
      exact ⟨hm, by rw [hmv]; simp [vsetOf]⟩
    | some nv =>
      cases nv with
      | str s =>
        rw [hnv] at hn
        exact absurd hn (by simp [isSetOrAbsent])
      | vset b =>
        simp only [pyTruthy, Bool.false_and, Bool.false_eq_true, if_false]
        by_cases hbe : b = ∅
        · have htrb : PyVal.truthy (PyVal.vset b) = false := by
            simp [PyVal.truthy, hbe]
          simp only [htrb, Bool.false_eq_true, if_false]
          exact ⟨hm, by rw [hmv]; simp [vsetOf, hbe]⟩
        · have htrb : PyVal.truthy (PyVal.vset b) = true := by
            simp [PyVal.truthy, hbe]
          simp only [htrb, eq_self_iff_true, if_true, Option.getD]
          rw [PNode.get_set_self]
          exact ⟨rfl, by simp [vsetOf]⟩
  | some mv =>
    cases mv with
    | str s =>
      rw [hmv] at hm
      exact absurd hm (by simp [isSetOrAbsent])
    | vset a =>
      cases hnv : nn.get "versions" with
      | none =>
        simp only [pyTruthy, Bool.and_false, Bool.false_eq_true, if_false]
        exact ⟨hm, by rw [hmv]; simp [vsetOf]⟩
      | some nv =>
        cases nv with
        | str s =>
          rw [hnv] at hn
          exact absurd hn (by simp [isSetOrAbsent])
        | vset b =>
          simp only [pyTruthy]
          by_cases hbe : b = ∅
          · have htrb : PyVal.truthy (PyVal.vset b) = false := by
              simp [PyVal.truthy, hbe]
            simp only [htrb, Bool.and_false, Bool.false_eq_true, if_false]
            exact ⟨hm, by rw [hmv]; simp [vsetOf, hbe]⟩
          · have htrb : PyVal.truthy (PyVal.vset b) = true := by
              simp [PyVal.truthy, hbe]
            by_cases hae : a = ∅
            · have htra : PyVal.truthy (PyVal.vset a) = false := by
                simp [PyVal.truthy, hae]
              simp only [htra, htrb, Bool.false_and, Bool.false_eq_true, if_false,
                eq_self_iff_true, if_true, Option.getD]
              rw [PNode.get_set_self]
              exact ⟨rfl, by simp [vsetOf, hae]⟩
            · have htra : PyVal.truthy (PyVal.vset a) = true := by
                simp [PyVal.truthy, hae]
              simp only [htra, htrb, Bool.and_self, eq_self_iff_true, if_true,
                Option.getD]
              rw [PNode.get_set_self]
              exact ⟨rfl, by simp [vsetOf, pyUpdate]⟩

theorem mergeNodeStep_eq_add (m : PyGraph) (nd : PNode) (h : m.get_node nd.name = []) :
    mergeNodeStep m nd = m.add_node ⟨nd.name, nd.attrs⟩ := by
  unfold mergeNodeStep
  rw [h]

theorem mergeNodeStep_eq_update (m : PyGraph) (nd m0 : PNode) (rest : List PNode)
    (h : m.get_node nd.name = m0 :: rest) :
    mergeNodeStep m nd =
      { m with nodes :=
          updateFirst nd.name (mergeVersionsAttr ⟨nd.name, nd.attrs⟩) m.nodes } := by
  unfold mergeNodeStep
  rw [h]

theorem mergeNodeStep_spec (m : PyGraph) (nd : PNode)
    (hnd : (m.nodes.map PNode.name).Nodup)
    (hok : ∀ n ∈ m.nodes, isSetOrAbsent (n.get "versions") = true)
    (hnok : isSetOrAbsent (nd.get "versions") = true) :
    ((mergeNodeStep m nd).nodes.map PNode.name).Nodup ∧
    (∀ n ∈ (mergeNodeStep m nd).nodes, isSetOrAbsent (n.get "versions") = true) ∧
    (mergeNodeStep m nd).edges = m.edges ∧
    ∀ x, versionsOfNodes (mergeNodeStep m nd).nodes x =
      versionsOfNodes m.nodes x ∪
        (if nd.name = x then vsetOf (nd.get "versions") else ∅) := by
  have hnnget : ∀ k, (PNode.mk nd.name nd.attrs).get k = nd.get k := fun k => rfl
  cases hgn : m.get_node nd.name with
  | nil =>
    have hnotin : ∀ n ∈ m.nodes, n.name ≠ nd.name := by
      intro n hn hname
      have hmem : n ∈ m.nodes.filter (fun p => p.name = nd.name) :=
        List.mem_filter.mpr ⟨hn, by simp [hname]⟩
      rw [show m.nodes.filter (fun p => p.name = nd.name) = m.get_node nd.name from rfl,
        hgn] at hmem
      cases hmem
    rw [mergeNodeStep_eq_add m nd hgn]
    refine ⟨?_, ?_, rfl, ?_⟩
    · show ((m.nodes ++ [PNode.mk nd.name nd.attrs]).map PNode.name).Nodup
      rw [List.map_append]
      simp only [List.map_cons, List.map_nil]
      rw [List.nodup_append]
      refine ⟨hnd, List.nodup_singleton _, ?_⟩
      intro y hy hy2
      simp only [List.mem_singleton] at hy2
      obtain ⟨n, hn, rfl⟩ := List.mem_map.mp hy
      exact hnotin n hn hy2
    · intro n hn
      rcases List.mem_append.mp hn with hn1 | hn2
      · exact hok n hn1
      · simp only [List.mem_singleton] at hn2
        subst hn2
        exact hnok
    · intro x
      show versionsOfNodes (m.nodes ++ [PNode.mk nd.name nd.attrs]) x = _
      rw [versionsOfNodes_append, versionsOfNodes_cons, versionsOfNodes_nil]
      by_cases hx : nd.name = x
      · rw [if_pos hx, if_pos hx, Finset.union_empty, hnnget]
      · rw [if_neg hx, if_neg hx, Finset.union_empty]
  | cons m0 rest =>
    have hex : ∃ n0 ∈ m.nodes, n0.name = nd.name := by
      have hmem : m0 ∈ m.nodes.filter (fun p => p.name = nd.name) := by
        rw [show m.nodes.filter (fun p => p.name = nd.name) = m.get_node nd.name from rfl,
          hgn]
        exact List.mem_cons_self _ _
      obtain ⟨h1, h2⟩ := List.mem_filter.mp hmem
      simp only [decide_eq_true_eq] at h2
      exact ⟨m0, h1, h2⟩
    rw [mergeNodeStep_eq_update m nd m0 rest hgn]
    refine ⟨?_, ?_, rfl, ?_⟩
    · show ((updateFirst nd.name (mergeVersionsAttr (PNode.mk nd.name nd.attrs))
          m.nodes).map PNode.name).Nodup
      rw [updateFirst_names _ _ (fun n => mergeVersionsAttr_name _ n)]
      exact hnd
    · intro n hn
      rcases mem_updateFirst _ _ _ n hn with h1 | ⟨n0, hn0, rfl⟩
      · exact hok n h1
      · exact (mergeVersionsAttr_spec _ n0 (hok n0 hn0) (by rw [hnnget]; exact hnok)).1
    · intro x
      show versionsOfNodes (updateFirst nd.name
          (mergeVersionsAttr (PNode.mk nd.name nd.attrs)) m.nodes) x = _
      rw [versionsOfNodes_updateFirst nd.name x _ (vsetOf (nd.get "versions"))
        (fun n => mergeVersionsAttr_name _ n) m.nodes
        (fun n hn => by
          rw [(mergeVersionsAttr_spec _ n (hok n hn) (by rw [hnnget]; exact hnok)).2,
            hnnget])
        hnd hex]
      by_cases hx : nd.name = x
      · rw [if_pos hx.symm, if_pos hx]
      · rw [if_neg (fun hh => hx hh.symm), if_neg hx, Finset.union_empty]

theorem mergeNodes_fold (nds : List PNode) :
    ∀ m : PyGraph, (m.nodes.map PNode.name).Nodup →
      (∀ n ∈ m.nodes, isSetOrAbsent (n.get "versions") = true) →
      (∀ n ∈ nds, isSetOrAbsent (n.get "versions") = true) →
      (((nds.foldl mergeNodeStep m).nodes.map PNode.name).Nodup ∧
       (∀ n ∈ (nds.foldl mergeNodeStep m).nodes,
          isSetOrAbsent (n.get "versions") = true) ∧
       (nds.foldl mergeNodeStep m).edges = m.edges ∧
       ∀ x, versionsOfNodes (nds.foldl mergeNodeStep m).nodes x =
         versionsOfNodes m.nodes x ∪ versionsOfNodes nds x) := by
  induction nds with
  | nil =>
    intro m h1 h2 _
    exact ⟨h1, h2, rfl, fun x => by
      rw [show List.foldl mergeNodeStep m [] = m from rfl, versionsOfNodes_nil,
        Finset.union_empty]⟩
  | cons nd rest ih =>
    intro m h1 h2 h3
    obtain ⟨s1, s2, s3, s4⟩ := mergeNodeStep_spec m nd h1 h2 (h3 nd (List.mem_cons_self _ _))
    obtain ⟨t1, t2, t3, t4⟩ :=
      ih (mergeNodeStep m nd) s1 s2 (fun n hn => h3 n (List.mem_cons_of_mem _ hn))
    refine ⟨t1, t2, t3.trans s3, ?_⟩
    intro x
    rw [show List.foldl mergeNodeStep m (nd :: rest) =
        List.foldl mergeNodeStep (mergeNodeStep m nd) rest from rfl,
      t4 x, s4 x, versionsOfNodes_cons]
    by_cases hx : nd.name = x
    · rw [if_pos hx, if_pos hx, Finset.union_assoc]
    · rw [if_neg hx, if_neg hx, Finset.union_empty]

theorem merge_fold (graphs : List PyGraph) :
    ∀ m : PyGraph, (m.nodes.map PNode.name).Nodup →
      (∀ n ∈ m.nodes, isSetOrAbsent (n.get "versions") = true) →
      (∀ g ∈ graphs, ∀ n ∈ g.nodes, isSetOrAbsent (n.get "versions") = true) →
      ((graphs.foldl (fun merged g =>
          (g.nodes.foldl mergeNodeStep
            { merged with edges := merged.edges ++ g.edges })) m).edges =
          m.edges ++ (graphs.map PyGraph.edges).flatten ∧
       ∀ x, versionsOfNodes (graphs.foldl (fun merged g =>
          (g.nodes.foldl mergeNodeStep
            { merged with edges := merged.edges ++ g.edges })) m).nodes x =
         versionsOfNodes m.nodes x ∪
           (graphs.map (fun g => versionsOfNodes g.nodes x)).foldr (· ∪ ·) ∅) := by
  induction graphs with
  | nil =>
    intro m _ _ _
    constructor
    · simp
    · intro x
      simp
  | cons g rest ih =>
    intro m h1 h2 h3
    obtain ⟨u1, u2, u3, u4⟩ := mergeNodes_fold g.nodes
      { m with edges := m.edges ++ g.edges } h1 h2
      (fun n hn => h3 g (List.mem_cons_self _ _) n hn)
    obtain ⟨v3, v4⟩ := ih (g.nodes.foldl mergeNodeStep
        { m with edges := m.edges ++ g.edges }) u1 u2
      (fun g' hg' n hn => h3 g' (List.mem_cons_of_mem _ hg') n hn)
    constructor
    · rw [show List.foldl (fun merged g =>
          (g.nodes.foldl mergeNodeStep
            { merged with edges := merged.edges ++ g.edges })) m (g :: rest) =
        List.foldl (fun merged g =>
          (g.nodes.foldl mergeNodeStep
            { merged with edges := merged.edges ++ g.edges }))
          (g.nodes.foldl mergeNodeStep
            { m with edges := m.edges ++ g.edges }) rest from rfl,
        v3, u3]
      simp [List.append_assoc]
    · intro x
      rw [show List.foldl (fun merged g =>
          (g.nodes.foldl mergeNodeStep
            { merged with edges := merged.edges ++ g.edges })) m (g :: rest) =
        List.foldl (fun merged g =>
          (g.nodes.foldl mergeNodeStep
            { merged with edges := merged.edges ++ g.edges }))
          (g.nodes.foldl mergeNodeStep
            { m with edges := m.edges ++ g.edges }) rest from rfl,
        v4 x, u4 x, List.map_cons, List.foldr_cons, Finset.union_assoc]

/-- C8: merging any list of graphs whose nodes obey the `'versions'`
discipline (absent or a set) yields, for every node name, the *union*
of all version sets the inputs carry for that name (a later input never
overwrites an earlier one), and the merged edge list is the
concatenation of all input edge lists — duplicated edges included. -/
theorem merge_graphs_versions_union (graphs : List PyGraph) (x : String)
    (hok : ∀ g ∈ graphs, ∀ n ∈ g.nodes, isSetOrAbsent (n.get "versions") = true) :
    versionsOf (merge_graphs graphs) x =
      (graphs.map (fun g => versionsOf g x)).foldr (· ∪ ·) ∅ ∧
    (merge_graphs graphs).edges = (graphs.map PyGraph.edges).flatten := by
  obtain ⟨he, hv⟩ := merge_fold graphs ⟨[], []⟩ (by simp) (by simp) hok
  constructor
  · have h := hv x
    rw [versionsOfNodes_nil, Finset.empty_union] at h
    exact h
  · rw [show (merge_graphs graphs).edges = ([] : List (String × String)) ++
      (graphs.map PyGraph.edges).flatten from he]
    rw [List.nil_append]

/-- Concrete graphs for the C8 witness: both carry a node `A` with a
version set, and both carry the same edge `A → B`. -/
def gC8a : PyGraph := ⟨[⟨"A", [("versions", PyVal.vset {"v1"})]⟩], [("A", "B")]⟩

def gC8b : PyGraph := ⟨[⟨"A", [("versions", PyVal.vset {"v2"})]⟩], [("A", "B")]⟩

theorem merge_graphs_versions_union_witness :
    (∀ g ∈ [gC8a, gC8b], ∀ n ∈ g.nodes,
      isSetOrAbsent (n.get "versions") = true) ∧
    (versionsOf (merge_graphs [gC8a, gC8b]) "A" =
      ([gC8a, gC8b].map (fun g => versionsOf g "A")).foldr (· ∪ ·) ∅ ∧
    (merge_graphs [gC8a, gC8b]).edges = ([gC8a, gC8b].map PyGraph.edges).flatten) :=
  ⟨by decide, merge_graphs_versions_union [gC8a, gC8b] "A" (by decide)⟩
